import Mathlib

/-!
# Verification of the pathfinding core (`src/algorithms.py`, `app.py`)

A shallow embedding of the weighted-graph shortest-path engine:
the `Graph` container, `Graph.from_dict`, the two searches (`dijkstra`,
`astar`), the two heuristics, and the heuristic validation performed by the
HTTP handler `find_path_astar`.

Modelling decisions:
* Python float weights and coordinates are modelled as `ℚ`; the value
  `float('inf')` used by the distance tables is modelled as `⊤ : WithTop ℚ`.
  The floating-point square root `** 0.5` inside the euclidean heuristic is
  modelled exactly on perfect squares (`ratSqrt`); every theorem below
  evaluates it only at such arguments.
* Python `dict`s (insertion ordered, unique keys) are association lists with
  `dictGet`/`dictSet`; updating an existing key keeps its position, a new key
  is appended.
* The `heapq` frontier of `(priority, node_id)` tuples is modelled by a list
  kept sorted under the lexicographic order on `(WithTop ℚ) × String`
  (Python compares tuples lexicographically and strings by code point);
  `heappush` is ordered insertion and popping takes the head, which is
  exactly the extract-min contract of a binary heap over a total order.
* The `while` loops are fuel recursions; the fuel used by `dijkstra`/`astar`
  is large enough that it never runs out (each loop iteration consumes one
  queue entry and the total number of pushes is bounded by the total arc
  count, see the termination lemmas below).
* `time.perf_counter` timing is environment behaviour, not algorithmic
  behaviour; the `execution_time_ms` field is therefore not modelled.
-/

/-! ## Python dictionaries as association lists -/

/-- Lookup in an insertion-ordered dictionary (`d[k]` / `d.get(k)`). -/
def dictGet {α : Type} (m : List (String × α)) (k : String) : Option α :=
  match m with
  | [] => none
  | (k', v) :: rest => if k' = k then some v else dictGet rest k

/-- Lookup with a default value (`d.get(k, default)`), also used to model a
plain `d[k]` access at call sites where the key is known to be present. -/
def dictGetD {α : Type} (m : List (String × α)) (k : String) (d : α) : α :=
  (dictGet m k).getD d

/-- Assignment `d[k] = v`: replace in place when the key exists, append
otherwise (Python dicts preserve insertion order). -/
def dictSet {α : Type} (m : List (String × α)) (k : String) (v : α) :
    List (String × α) :=
  match m with
  | [] => [(k, v)]
  | (k', v') :: rest =>
    if k' = k then (k', v) :: rest else (k', v') :: dictSet rest k v

/-- Membership test `k in d`. -/
def dictMem {α : Type} (m : List (String × α)) (k : String) : Prop :=
  (dictGet m k).isSome = true

instance {α : Type} (m : List (String × α)) (k : String) :
    Decidable (dictMem m k) := by
  unfold dictMem; infer_instance

/-! ## String comparison

Python compares strings lexicographically by code point.  Lean's built-in
`String.lt` has the same semantics but is implemented on byte iterators and
does not reduce in the kernel, so the embedding carries its own code-point
comparison over `String.data`. -/

/-- Code-point lexicographic strict order on character lists. -/
def charListLt : List Char → List Char → Bool
  | _, [] => false
  | [], _ :: _ => true
  | c :: cs, d :: ds =>
    c.toNat < d.toNat || (c.toNat = d.toNat && charListLt cs ds)

/-- Python's `s1 < s2` on strings. -/
def strLt (a b : String) : Prop := charListLt a.data b.data = true

instance (a b : String) : Decidable (strLt a b) := by
  unfold strLt; infer_instance

/-- Python's `s1 <= s2` on strings (total order: `¬ (s2 < s1)`). -/
def strLe (a b : String) : Prop := ¬ strLt b a

instance (a b : String) : Decidable (strLe a b) := by
  unfold strLe; infer_instance

/-! ## Data model -/

/-- Result record returned by both searches (`PathResult` in the source);
`execution_time_ms` is wall-clock measurement and is not modelled. -/
structure PathResult where
  path : List String
  distance : ℚ
  nodes_explored : Nat
  algorithm : String
deriving DecidableEq, Repr

/-- The graph container: adjacency lists and optional planar positions,
both insertion-ordered dictionaries keyed by node id. -/
structure Graph where
  adjacency_list : List (String × List (String × ℚ))
  node_positions : List (String × (ℚ × ℚ))
deriving DecidableEq, Repr

/-- The `Graph()` constructor: empty adjacency and position dictionaries. -/
def Graph.empty : Graph := ⟨[], []⟩

/-- Method `add_node(node_id, x=0, y=0)`: create the adjacency entry if the
id is new, and (re)record the position unconditionally. -/
def Graph.add_node (g : Graph) (node_id : String) (x : ℚ := 0) (y : ℚ := 0) :
    Graph where
  adjacency_list :=
    if (dictGet g.adjacency_list node_id).isSome then g.adjacency_list
    else g.adjacency_list ++ [(node_id, [])]
  node_positions := dictSet g.node_positions node_id (x, y)

/-- Method `get_neighbors(node_id)`: the outgoing arcs, `[]` when absent. -/
def Graph.get_neighbors (g : Graph) (node_id : String) : List (String × ℚ) :=
  dictGetD g.adjacency_list node_id []

/-- Method `add_edge(from_node, to_node, weight, bidirectional=True)`:
auto-create missing endpoints with the default position, then append the
arc(s). -/
def Graph.add_edge (g : Graph) (from_node to_node : String) (weight : ℚ)
    (bidirectional : Bool := true) : Graph :=
  let g1 := if (dictGet g.adjacency_list from_node).isSome then g
            else g.add_node from_node
  let g2 := if (dictGet g1.adjacency_list to_node).isSome then g1
            else g1.add_node to_node
  let g3 : Graph :=
    { g2 with adjacency_list :=
        dictSet g2.adjacency_list from_node (g2.get_neighbors from_node ++ [(to_node, weight)]) }
  if bidirectional then
    { g3 with adjacency_list :=
        dictSet g3.adjacency_list to_node (g3.get_neighbors to_node ++ [(from_node, weight)]) }
  else g3

/-- Method `get_nodes()`. -/
def Graph.get_nodes (g : Graph) : List String :=
  g.adjacency_list.map Prod.fst

/-! ## Structured input (`Graph.from_dict`) -/

/-- One element of the `nodes` list: either a bare id (any non-dict value,
stored via `str(node)`) or an object with an optional `id`/`x`/`y` key. -/
inductive NodeItem where
  | bare (s : String)
  | obj (idK : Option String) (xK yK : Option ℚ)
deriving DecidableEq, Repr

/-- One element of the `edges` list, with each key optional. -/
structure EdgeItem where
  fromK : Option String
  toK : Option String
  weightK : Option ℚ
  bidirectionalK : Option Bool
deriving DecidableEq, Repr

/-- The structured payload handed to `Graph.from_dict` (a missing `nodes` or
`edges` key defaults to the empty list via `data.get(..., [])`, which is
already reflected by the plain list fields). -/
structure GraphData where
  nodes : List NodeItem
  edges : List EdgeItem
deriving DecidableEq, Repr

/-- A missing required key raises `KeyError` in Python; the spec calls this
outcome MalformedInput. -/
inductive BuildError where
  | MalformedInput
deriving DecidableEq, Repr

/-- The node-processing loop of `from_dict`: `node['id']` raises on a dict
without `id`; `x`/`y` default to `0`. -/
def addNodesFromData (g : Graph) : List NodeItem → Except BuildError Graph
  | [] => .ok g
  | .bare s :: rest => addNodesFromData (g.add_node s 0 0) rest
  | .obj none _ _ :: _ => .error .MalformedInput
  | .obj (some i) xK yK :: rest =>
    addNodesFromData (g.add_node i (xK.getD 0) (yK.getD 0)) rest

/-- The edge-processing loop of `from_dict`: `edge['from']`/`edge['to']`
raise when absent; `weight` defaults to `1.0`, `bidirectional` to `True`. -/
def addEdgesFromData (g : Graph) : List EdgeItem → Except BuildError Graph
  | [] => .ok g
  | e :: rest =>
    match e.fromK, e.toK with
    | some f, some t =>
      addEdgesFromData (g.add_edge f t (e.weightK.getD 1) (e.bidirectionalK.getD true)) rest
    | _, _ => .error .MalformedInput

/-- Classmethod `Graph.from_dict(data)`. -/
def Graph.from_dict (data : GraphData) : Except BuildError Graph :=
  match addNodesFromData Graph.empty data.nodes with
  | .error e => .error e
  | .ok g => addEdgesFromData g data.edges

/-! ## Heuristics -/

/-- Exact square root on `ℚ`: the floating point `x ** 0.5` of the source is
modelled only at arguments whose root is exactly representable (all theorems
below evaluate it only at such arguments, in fact only at `0`). -/
def ratSqrt (q : ℚ) : ℚ :=
  if ((Nat.sqrt q.num.toNat : ℚ) / (Nat.sqrt q.den : ℚ)) ^ 2 = q
  then (Nat.sqrt q.num.toNat : ℚ) / (Nat.sqrt q.den : ℚ) else 0

/-- Function `euclidean_heuristic(graph, node, goal)`: straight-line distance
between recorded positions, `0` when either position is missing. -/
def euclidean_heuristic (g : Graph) (node goal : String) : ℚ :=
  match dictGet g.node_positions node, dictGet g.node_positions goal with
  | some (x1, y1), some (x2, y2) => ratSqrt ((x2 - x1) ^ 2 + (y2 - y1) ^ 2)
  | _, _ => 0

/-- Function `manhattan_heuristic(graph, node, goal)`. -/
def manhattan_heuristic (g : Graph) (node goal : String) : ℚ :=
  match dictGet g.node_positions node, dictGet g.node_positions goal with
  | some (x1, y1), some (x2, y2) => |x2 - x1| + |y2 - y1|
  | _, _ => 0

/-! ## The frontier (`heapq` on `(priority, node_id)` tuples) -/

/-- A queue entry: numeric priority paired with the node id. -/
abbrev QEntry := WithTop ℚ × String

/-- Python's tuple order on `(priority, node_id)`: by priority first, then by
the node id as the deterministic tie-break. -/
def entryLE (a b : QEntry) : Prop :=
  a.1 < b.1 ∨ (a.1 = b.1 ∧ strLe a.2 b.2)

instance (a b : QEntry) : Decidable (entryLE a b) := by
  unfold entryLE; infer_instance

/-- Model of `heapq.heappush`: ordered insertion into the sorted frontier. -/
def heappush (q : List QEntry) (e : QEntry) : List QEntry :=
  List.orderedInsert entryLE e q

/-! ## Uniform-cost search (`dijkstra`) -/

/-- The mutable locals of the `dijkstra` loop. -/
structure DijkstraState where
  distances : List (String × WithTop ℚ)
  previous : List (String × Option String)
  priority_queue : List QEntry
  visited : List String
  nodes_explored : Nat
deriving Repr

/-- One relaxation (the body of the `for neighbor, weight in ...` loop):
`distance = current_distance + weight`, update tables and push on
improvement. -/
def dijkstraRelax (current_distance : WithTop ℚ) (current_node : String)
    (st : DijkstraState) (arc : String × ℚ) : DijkstraState :=
  let distance := current_distance + (arc.2 : WithTop ℚ)
  if distance < dictGetD st.distances arc.1 ⊤ then
    { st with distances := dictSet st.distances arc.1 distance
              previous := dictSet st.previous arc.1 (some current_node)
              priority_queue := heappush st.priority_queue (distance, arc.1) }
  else st

/-- The `while priority_queue:` loop of `dijkstra`, as a fuel recursion.
Each iteration pops the minimum entry, skips already-visited nodes, breaks
on reaching `end_node`, skips stale entries, and otherwise relaxes the
popped node's outgoing arcs. -/
def dijkstraLoop (g : Graph) (end_node : String) :
    Nat → DijkstraState → DijkstraState
  | 0, st => st
  | fuel + 1, st =>
    match st.priority_queue with
    | [] => st
    | (current_distance, current_node) :: rest =>
      if current_node ∈ st.visited then
        dijkstraLoop g end_node fuel { st with priority_queue := rest }
      else
        let st1 : DijkstraState :=
          { st with priority_queue := rest
                    visited := current_node :: st.visited
                    nodes_explored := st.nodes_explored + 1 }
        if current_node = end_node then st1
        else if dictGetD st1.distances current_node ⊤ < current_distance then
          dijkstraLoop g end_node fuel st1
        else
          dijkstraLoop g end_node fuel
            ((g.get_neighbors current_node).foldl
              (dijkstraRelax current_distance current_node) st1)

/-- Fuel bound for the search loops: every loop iteration consumes one queue
entry, and at most `1 + (total arc count)` entries are ever pushed. -/
def searchFuel (g : Graph) : Nat :=
  (g.adjacency_list.map (fun kv => kv.2.length)).sum + 2

/-- Fuel bound for path reconstruction: a reconstructible predecessor chain
never repeats a node, so its length is at most the node count. -/
def walkFuel (g : Graph) : Nat :=
  g.adjacency_list.length + 1

/-- The reconstruction loop `while current is not None: path.append(current);
current = previous[current]` followed by `path.reverse()` (consing into the
accumulator yields the reversed-then-reversed, i.e. forward, order). -/
def walkPrev (previous : List (String × Option String)) :
    Nat → Option String → List String → List String
  | 0, _, acc => acc
  | _ + 1, none, acc => acc
  | fuel + 1, some c, acc =>
    walkPrev previous fuel (dictGetD previous c none) (c :: acc)

/-- Function `dijkstra(graph, start, end)`. -/
def dijkstra (g : Graph) (start end_node : String) : Option PathResult :=
  if (dictGet g.adjacency_list start).isNone ∨
     (dictGet g.adjacency_list end_node).isNone then none
  else
    let distances0 : List (String × WithTop ℚ) :=
      dictSet (g.adjacency_list.map (fun kv => (kv.1, (⊤ : WithTop ℚ))))
        start ((0 : ℚ) : WithTop ℚ)
    let previous0 : List (String × Option String) :=
      g.adjacency_list.map (fun kv => (kv.1, none))
    let st := dijkstraLoop g end_node (searchFuel g)
      { distances := distances0, previous := previous0,
        priority_queue := [(((0 : ℚ) : WithTop ℚ), start)],
        visited := [], nodes_explored := 0 }
    let d := dictGetD st.distances end_node ⊤
    if d = ⊤ then none
    else some
      { path := walkPrev st.previous (walkFuel g) (some end_node) []
        distance := d.untop' 0
        nodes_explored := st.nodes_explored
        algorithm := "dijkstra" }

/-! ## Guided search (`astar`) -/

/-- The mutable locals of the `astar` loop. -/
structure AStarState where
  g_score : List (String × WithTop ℚ)
  f_score : List (String × WithTop ℚ)
  previous : List (String × Option String)
  open_set : List QEntry
  open_set_hash : List String
  closed_set : List String
  nodes_explored : Nat
deriving Repr

/-- The body of the `for neighbor, weight in ...` loop of `astar`: skip
closed nodes, relax on improvement, and push only when the neighbor is not
already in the open-set membership structure. -/
def astarRelax (g : Graph) (hfn : Graph → String → String → ℚ)
    (end_node current : String) (st : AStarState) (arc : String × ℚ) :
    AStarState :=
  if arc.1 ∈ st.closed_set then st
  else
    let tentative_g := dictGetD st.g_score current ⊤ + (arc.2 : WithTop ℚ)
    if tentative_g < dictGetD st.g_score arc.1 ⊤ then
      let f_new := tentative_g + ((hfn g arc.1 end_node : ℚ) : WithTop ℚ)
      let st1 : AStarState :=
        { st with previous := dictSet st.previous arc.1 (some current)
                  g_score := dictSet st.g_score arc.1 tentative_g
                  f_score := dictSet st.f_score arc.1 f_new }
      if arc.1 ∈ st.open_set_hash then st1
      else
        { st1 with open_set := heappush st1.open_set (f_new, arc.1)
                   open_set_hash := arc.1 :: st1.open_set_hash }
    else st

/-- The `while open_set:` loop of `astar`: pop, skip entries whose node left
the open-set membership structure (lazy invalidation), return on reaching
`end_node`, otherwise close the node and relax its arcs. -/
def astarLoop (g : Graph) (hfn : Graph → String → String → ℚ)
    (end_node heuristic : String) :
    Nat → AStarState → Option PathResult
  | 0, _ => none
  | fuel + 1, st =>
    match st.open_set with
    | [] => none
    | (_, current) :: rest =>
      if current ∈ st.open_set_hash then
        let st1 : AStarState :=
          { st with open_set := rest
                    open_set_hash := st.open_set_hash.erase current
                    nodes_explored := st.nodes_explored + 1 }
        if current = end_node then
          some
            { path := walkPrev st1.previous (walkFuel g) (some end_node) []
              distance := (dictGetD st1.g_score end_node ⊤).untop' 0
              nodes_explored := st1.nodes_explored
              algorithm := "astar_" ++ heuristic }
        else
          astarLoop g hfn end_node heuristic fuel
            ((g.get_neighbors current).foldl
              (astarRelax g hfn end_node current)
              { st1 with closed_set := current :: st1.closed_set })
      else
        astarLoop g hfn end_node heuristic fuel { st with open_set := rest }

/-- Function `astar(graph, start, end, heuristic="euclidean")`.  Note the
heuristic dispatch: `"manhattan"` selects the manhattan heuristic and every
other tag (valid or not) selects the euclidean one. -/
def astar (g : Graph) (start end_node : String)
    (heuristic : String := "euclidean") : Option PathResult :=
  if (dictGet g.adjacency_list start).isNone ∨
     (dictGet g.adjacency_list end_node).isNone then none
  else
    let hfn := if heuristic = "manhattan" then manhattan_heuristic
               else euclidean_heuristic
    let g_score0 : List (String × WithTop ℚ) :=
      dictSet (g.adjacency_list.map (fun kv => (kv.1, (⊤ : WithTop ℚ))))
        start ((0 : ℚ) : WithTop ℚ)
    let f_score0 : List (String × WithTop ℚ) :=
      dictSet (g.adjacency_list.map (fun kv => (kv.1, (⊤ : WithTop ℚ))))
        start ((hfn g start end_node : ℚ) : WithTop ℚ)
    let previous0 : List (String × Option String) :=
      g.adjacency_list.map (fun kv => (kv.1, none))
    astarLoop g hfn end_node heuristic (searchFuel g)
      { g_score := g_score0, f_score := f_score0, previous := previous0,
        open_set := [(dictGetD f_score0 start ⊤, start)],
        open_set_hash := [start], closed_set := [], nodes_explored := 0 }

/-! ## The HTTP handler's heuristic validation (`app.py`, `find_path_astar`) -/

/-- Structural errors surfaced by the transport layer. -/
inductive ApiError where
  | InvalidHeuristic
  | NoPathFound
deriving DecidableEq, Repr

/-- The core of the `find_path_astar` handler: the heuristic tag is validated
against the list `['euclidean', 'manhattan']` before `astar` is invoked, and
a `None` search outcome becomes the NoPathFound error response (HTTP 404). -/
def find_path_astar_core (g : Graph) (start end_node heuristic : String) :
    Except ApiError PathResult :=
  if heuristic ∉ ["euclidean", "manhattan"] then .error .InvalidHeuristic
  else
    match astar g start end_node heuristic with
    | none => .error .NoPathFound
    | some r => .ok r

/-! ## Specification-side notions: paths, reachability, minimality -/

/-- A realizable start-to-target node sequence: `PathTo g s t p c` states
that `p` lists the nodes of a walk from `s` to `t` whose arcs can be chosen
from the adjacency structure with total weight `c`. -/
inductive PathTo (g : Graph) : String → String → List String → ℚ → Prop
  | single (v : String) : PathTo g v v [v] 0
  | step {u v t : String} {w c : ℚ} {p : List String}
      (harc : (v, w) ∈ g.get_neighbors u) (hp : PathTo g v t p c) :
      PathTo g u t (u :: p) (w + c)

/-- The true minimum-weight distance from `s` to `t`: attained by some walk
and a lower bound of every walk's weight. -/
def IsMinDist (g : Graph) (s t : String) (d : ℚ) : Prop :=
  (∃ p, PathTo g s t p d) ∧ ∀ p c, PathTo g s t p c → d ≤ c

/-- Non-negative edge weights, the standing assumption of both searches. -/
def NonnegWeights (g : Graph) : Prop :=
  ∀ kv ∈ g.adjacency_list, ∀ arc ∈ kv.2, (0 : ℚ) ≤ arc.2

/-- Every id appearing as an arc endpoint is a key of the adjacency mapping
(the Graph class invariant). -/
def ClosedGraph (g : Graph) : Prop :=
  ∀ kv ∈ g.adjacency_list, ∀ arc ∈ kv.2, dictMem g.adjacency_list arc.1

/-- Well-formedness enjoyed by every graph the Python class can construct:
unique adjacency keys and arc endpoints closed under the key set. -/
def Graph.WF (g : Graph) : Prop :=
  (g.adjacency_list.map Prod.fst).Nodup ∧ ClosedGraph g

/-! ## Dictionary lemmas -/

theorem dictGet_set_self {α : Type} (m : List (String × α)) (k : String) (v : α) :
    dictGet (dictSet m k v) k = some v := by
  induction m with
  | nil => simp [dictSet, dictGet]
  | cons kv rest ih =>
    by_cases h : kv.1 = k
    · simp [dictSet, dictGet, h]
    · simpa [dictSet, dictGet, h] using ih

theorem dictGet_set_ne {α : Type} (m : List (String × α)) {k k' : String} (v : α)
    (h : k ≠ k') : dictGet (dictSet m k v) k' = dictGet m k' := by
  induction m with
  | nil => simp [dictSet, dictGet, h]
  | cons kv rest ih =>
    by_cases hk : kv.1 = k
    · subst hk
      simp [dictSet, dictGet, h]
    · simp only [dictSet, hk, if_false, dictGet]
      by_cases hk' : kv.1 = k' <;> simp [hk', ih]

theorem dictGet_map_const {α β : Type} (m : List (String × α)) (c : β) (k : String) :
    dictGet (m.map (fun kv => (kv.1, c))) k = (dictGet m k).map (fun _ => c) := by
  induction m with
  | nil => simp [dictGet]
  | cons kv rest ih =>
    by_cases h : kv.1 = k <;> simp [dictGet, h, ih]

theorem dictGet_append_right {α : Type} (m m' : List (String × α)) (k : String)
    (h : dictGet m k = none) : dictGet (m ++ m') k = dictGet m' k := by
  induction m with
  | nil => simp
  | cons kv rest ih =>
    by_cases hk : kv.1 = k
    · simp [dictGet, hk] at h
    · simp only [dictGet, hk, if_false] at h
      simpa [dictGet, hk] using ih h

theorem dictGet_append_left {α : Type} (m m' : List (String × α)) (k : String)
    (h : (dictGet m k).isSome) : dictGet (m ++ m') k = dictGet m k := by
  induction m with
  | nil => simp [dictGet] at h
  | cons kv rest ih =>
    by_cases hk : kv.1 = k
    · simp [dictGet, hk]
    · simp only [dictGet, hk, if_false] at h ⊢
      exact ih h

theorem dictSet_keys_of_mem {α : Type} (m : List (String × α)) (k : String) (v : α)
    (h : (dictGet m k).isSome) :
    (dictSet m k v).map Prod.fst = m.map Prod.fst := by
  induction m with
  | nil => simp [dictGet] at h
  | cons kv rest ih =>
    by_cases hk : kv.1 = k
    · simp [dictSet, hk]
    · simp only [dictGet, hk, if_false] at h
      simp [dictSet, hk, ih h]

theorem dictGet_eq_none_of_not_mem_keys {α : Type} (m : List (String × α))
    (k : String) (h : k ∉ m.map Prod.fst) : dictGet m k = none := by
  induction m with
  | nil => rfl
  | cons kv rest ih =>
    simp only [List.map_cons, List.mem_cons, not_or] at h
    have hne : kv.1 ≠ k := fun hh => h.1 hh.symm
    simp [dictGet, hne, ih h.2]

theorem dictGet_isSome_of_mem_keys {α : Type} (m : List (String × α))
    (k : String) (h : k ∈ m.map Prod.fst) : (dictGet m k).isSome := by
  induction m with
  | nil => simp at h
  | cons kv rest ih =>
    by_cases hk : kv.1 = k
    · simp [dictGet, hk]
    · simp only [List.map_cons, List.mem_cons] at h
      rcases h with h | h
      · exact absurd h.symm hk
      · simpa [dictGet, hk] using ih h

theorem mem_keys_of_dictGet_isSome {α : Type} {m : List (String × α)}
    {k : String} (h : (dictGet m k).isSome) : k ∈ m.map Prod.fst := by
  induction m with
  | nil => simp [dictGet] at h
  | cons kv rest ih =>
    by_cases hk : kv.1 = k
    · simp [hk]
    · simp only [dictGet, hk, if_false] at h
      simpa using Or.inr (ih h)

theorem dictGet_mem_values {α : Type} {m : List (String × α)} {k : String} {v : α}
    (h : dictGet m k = some v) : (k, v) ∈ m := by
  induction m with
  | nil => simp [dictGet] at h
  | cons kv rest ih =>
    by_cases hk : kv.1 = k
    · subst hk
      simp only [dictGet, if_pos] at h
      cases h
      simp
    · simp only [dictGet, hk, if_false] at h
      exact List.mem_cons_of_mem _ (ih h)

/-! ## String-order lemmas -/

theorem charListLt_irrefl : ∀ l : List Char, charListLt l l = false
  | [] => rfl
  | c :: cs => by
    simp [charListLt, charListLt_irrefl cs]

theorem strLe_refl (s : String) : strLe s s := by
  simp [strLe, strLt, charListLt_irrefl]

theorem charListLt_or : ∀ x z : List Char, charListLt x z = true →
    ∀ y : List Char, charListLt x y = true ∨ charListLt y z = true
  | _, [], h, _ => by simp [charListLt] at h
  | [], _ :: _, _, [] => Or.inr rfl
  | [], _ :: _, _, _ :: _ => Or.inl rfl
  | _ :: _, _ :: _, _, [] => Or.inr rfl
  | c :: cs, d :: ds, h, e :: es => by
    simp only [charListLt, Bool.or_eq_true, decide_eq_true_eq,
      Bool.and_eq_true] at h ⊢
    rcases Nat.lt_trichotomy c.toNat e.toNat with hce | hce | hce
    · exact Or.inl (Or.inl hce)
    · rcases h with h | ⟨hcd, h⟩
      · exact Or.inr (Or.inl (hce ▸ h))
      · rcases charListLt_or cs ds h es with h' | h'
        · exact Or.inl (Or.inr ⟨hce, h'⟩)
        · exact Or.inr (Or.inr ⟨hce ▸ hcd, h'⟩)
    · rcases h with h | ⟨hcd, h⟩
      · exact Or.inr (Or.inl (lt_trans hce h))
      · exact Or.inr (Or.inl (hcd ▸ hce))

theorem charListLt_asymm : ∀ x y : List Char,
    charListLt x y = true → charListLt y x = false
  | _, [], h => by simp [charListLt] at h
  | [], _ :: _, _ => rfl
  | c :: cs, d :: ds, h => by
    have ih := charListLt_asymm cs ds
    simp only [charListLt, Bool.or_eq_true, Bool.and_eq_true,
      decide_eq_true_eq] at h
    simp only [charListLt, Bool.or_eq_false_iff, Bool.and_eq_false_iff,
      decide_eq_false_iff_not]
    rcases h with h | ⟨hcd, h⟩
    · exact ⟨Nat.lt_asymm h, Or.inl fun hh => absurd (hh ▸ h) (lt_irrefl _)⟩
    · exact ⟨fun hh => absurd (hcd ▸ hh) (lt_irrefl _), Or.inr (ih h)⟩

theorem strLe_total (a b : String) : strLe a b ∨ strLe b a := by
  by_cases h : strLt b a
  · refine Or.inr fun h' => ?_
    have hf := charListLt_asymm _ _ h'
    rw [strLt, hf] at h
    exact Bool.false_ne_true h
  · exact Or.inl h

theorem strLe_trans {a b c : String} (h1 : strLe a b) (h2 : strLe b c) :
    strLe a c := by
  intro h
  rcases charListLt_or _ _ h b.data with hh | hh
  · exact h2 hh
  · exact h1 hh

/-! ## Frontier order lemmas -/

theorem entryLE_refl (e : QEntry) : entryLE e e :=
  Or.inr ⟨rfl, strLe_refl e.2⟩

instance : IsTrans QEntry entryLE where
  trans a b c hab hbc := by
    rcases hab with hab | ⟨hab, hab'⟩ <;> rcases hbc with hbc | ⟨hbc, hbc'⟩
    · exact Or.inl (lt_trans hab hbc)
    · exact Or.inl (hbc ▸ hab)
    · exact Or.inl (hab ▸ hbc)
    · exact Or.inr ⟨hab.trans hbc, strLe_trans hab' hbc'⟩

instance : IsTotal QEntry entryLE where
  total a b := by
    rcases lt_trichotomy a.1 b.1 with h | h | h
    · exact Or.inl (Or.inl h)
    · rcases strLe_total a.2 b.2 with h' | h'
      · exact Or.inl (Or.inr ⟨h, h'⟩)
      · exact Or.inr (Or.inr ⟨h.symm, h'⟩)
    · exact Or.inr (Or.inl h)

theorem heappush_sorted {q : List QEntry} (e : QEntry)
    (h : List.Sorted entryLE q) : List.Sorted entryLE (heappush q e) :=
  List.Sorted.orderedInsert e q h

theorem mem_heappush {q : List QEntry} {e a : QEntry} :
    a ∈ heappush q e ↔ a = e ∨ a ∈ q :=
  List.mem_orderedInsert entryLE

theorem sorted_head_min {k : WithTop ℚ} {i : String} {rest : List QEntry}
    (h : List.Sorted entryLE ((k, i) :: rest)) :
    ∀ e ∈ (k, i) :: rest, entryLE (k, i) e := by
  intro e he
  rcases List.mem_cons.mp he with rfl | he
  · exact entryLE_refl _
  · exact List.rel_of_sorted_cons h e he

/-! ## Path lemmas -/

theorem PathTo.cost_nonneg {g : Graph} (hw : NonnegWeights g) :
    ∀ {s t : String} {p : List String} {c : ℚ}, PathTo g s t p c → 0 ≤ c := by
  intro s t p c h
  induction h with
  | single => exact le_refl 0
  | step harc hp ih =>
    rename_i u v t w c p
    have hu : (0 : ℚ) ≤ w := by
      by_cases hmem : (dictGet g.adjacency_list u).isSome
      · obtain ⟨l, hl⟩ := Option.isSome_iff_exists.mp hmem
        have : (v, w) ∈ l := by
          simpa [Graph.get_neighbors, dictGetD, hl] using harc
        exact hw (u, l) (dictGet_mem_values hl) (v, w) this
      · rw [Option.not_isSome_iff_eq_none] at hmem
        simp [Graph.get_neighbors, dictGetD, hmem] at harc
    linarith

theorem PathTo.extend {g : Graph} {s u : String} {p : List String} {c : ℚ}
    (h : PathTo g s u p c) {v : String} {w : ℚ}
    (harc : (v, w) ∈ g.get_neighbors u) :
    PathTo g s v (p ++ [v]) (c + w) := by
  induction h with
  | single x =>
    simpa using PathTo.step harc (PathTo.single v)
  | step harc' hp ih =>
    rename_i a b t w' c' p'
    have := PathTo.step harc' (ih harc)
    simpa [add_assoc] using this

theorem PathTo.src_ne_nil {g : Graph} {s t : String} {p : List String} {c : ℚ}
    (h : PathTo g s t p c) : p ≠ [] := by
  cases h <;> simp

/-! ## Heuristic evaluation lemmas -/

theorem ratSqrt_zero : ratSqrt 0 = 0 := by
  have h : (((Nat.sqrt (0 : ℚ).num.toNat : ℚ)) / (Nat.sqrt (0 : ℚ).den : ℚ)) ^ 2 = (0 : ℚ) := by
    norm_num [Rat.num_ofNat, Rat.den_ofNat]
  simp [ratSqrt, h, Rat.num_ofNat]

/-- When every recorded position coincides at the origin, the euclidean
estimate is `0` for every pair of ids (either both positions are `(0, 0)` or
one is missing). -/
theorem euclidean_heuristic_zero_of_origin (g : Graph)
    (hp : ∀ kv ∈ g.node_positions, kv.2 = ((0 : ℚ), (0 : ℚ))) (a b : String) :
    euclidean_heuristic g a b = 0 := by
  unfold euclidean_heuristic
  cases h1 : dictGet g.node_positions a with
  | none => rfl
  | some pa =>
    cases h2 : dictGet g.node_positions b with
    | none => rfl
    | some pb =>
      have ha := hp _ (dictGet_mem_values h1)
      have hb := hp _ (dictGet_mem_values h2)
      simp only at ha hb
      subst ha hb
      simpa using ratSqrt_zero

/-! ## Example graphs -/

/-- Directed graph on which the stale-priority behaviour of `astar` shows:
the cheap route to `V` is discovered after `V` was first pushed with
priority `15`, and the improvement does not re-push, so `U` (the goal) is
popped with the suboptimal g-score `6` before `V` is ever expanded.  All
positions sit at the origin, so both heuristics evaluate to `0` everywhere —
admissible and consistent. -/
def exStale : Graph :=
  ((((Graph.empty.add_edge "S" "X" 1 false).add_edge "X" "V" 14 false).add_edge
      "S" "M1" 2 false).add_edge "M1" "V" 1 false |>.add_edge "V" "U" 1 false).add_edge
      "S" "U" 6 false

/-- Scenario 1 of the spec: triangle A-B-C with weights 1, 2, 5. -/
def exTri : Graph :=
  ((Graph.empty.add_edge "A" "B" 1).add_edge "B" "C" 2).add_edge "A" "C" 5

/-- The triangle together with an isolated node Z (scenario 3). -/
def exTriIso : Graph := exTri.add_node "Z"

theorem exStale_positions_origin :
    ∀ kv ∈ exStale.node_positions, kv.2 = ((0 : ℚ), (0 : ℚ)) := by
  with_unfolding_all decide

theorem exStale_nonneg : NonnegWeights exStale := by
  unfold NonnegWeights
  with_unfolding_all decide

/-- Claim C2.  The spec asserts that with an admissible heuristic the guided
search reports the same distance as uniform-cost search.  The code violates
this: on `exStale` (euclidean heuristic, identically `0`, hence admissible)
`astar` answers distance 6 while `dijkstra` answers the true minimum 4.
The culprit is `astar`'s relaxation step: when a neighbor's g-score improves
while the neighbor is already in the open set, no entry with the improved
priority is pushed (`src/algorithms.py` lines 207-214), so the node keeps its
stale, too-high priority — contradicting the spec's own description of
superseding pushes (§4.4). -/
theorem claim_C2_astar_admissible_mismatch :
    (∀ v p c, PathTo exStale v "U" p c → euclidean_heuristic exStale v "U" ≤ c) ∧
    dijkstra exStale "S" "U" =
      some { path := ["S", "M1", "V", "U"], distance := 4, nodes_explored := 5,
             algorithm := "dijkstra" } ∧
    astar exStale "S" "U" "euclidean" =
      some { path := ["S", "U"], distance := 6, nodes_explored := 4,
             algorithm := "astar_euclidean" } ∧
    Option.map PathResult.distance (astar exStale "S" "U" "euclidean") ≠
      Option.map PathResult.distance (dijkstra exStale "S" "U") := by
  refine ⟨?_, ?_, ?_, ?_⟩
  · intro v p c hp
    rw [euclidean_heuristic_zero_of_origin exStale exStale_positions_origin]
    exact PathTo.cost_nonneg exStale_nonneg hp
  · with_unfolding_all decide
  · with_unfolding_all decide
  · with_unfolding_all decide

/-- Claim C7.  The spec asserts that when the heuristic degrades to `0`
everywhere, guided search matches uniform-cost search in path, distance and
`nodes_explored`.  On `exStale` every euclidean estimate is `0` (all recorded
positions coincide), yet the two searches disagree on all three fields, for
the same missing-repush reason as in C2. -/
theorem claim_C7_zero_heuristic_mismatch :
    (∀ v w, euclidean_heuristic exStale v w = 0) ∧
    astar exStale "S" "U" "euclidean" =
      some { path := ["S", "U"], distance := 6, nodes_explored := 4,
             algorithm := "astar_euclidean" } ∧
    dijkstra exStale "S" "U" =
      some { path := ["S", "M1", "V", "U"], distance := 4, nodes_explored := 5,
             algorithm := "dijkstra" } := by
  refine ⟨fun v w => euclidean_heuristic_zero_of_origin exStale exStale_positions_origin v w,
    ?_, ?_⟩
  · with_unfolding_all decide
  · with_unfolding_all decide

/-- Counterexample to claim C3: calling `astar` with the unknown heuristic
tag `"random"` does not fail — it silently runs with the euclidean fallback
and returns a full result (tagged `astar_random`). -/
theorem claim_C3_counterexample :
    astar exTri "A" "C" "random" =
      some { path := ["A", "B", "C"], distance := 3, nodes_explored := 3,
             algorithm := "astar_random" } := by
  with_unfolding_all decide

/-! ## The heuristic tag only affects the result's algorithm label -/

theorem astarLoop_algorithm_label (g : Graph) (hfn : Graph → String → String → ℚ)
    (end_node n1 n2 : String) :
    ∀ (fuel : Nat) (st : AStarState),
      astarLoop g hfn end_node n1 fuel st =
        Option.map (fun r => { r with algorithm := "astar_" ++ n1 })
          (astarLoop g hfn end_node n2 fuel st)
  | 0, st => rfl
  | fuel + 1, st => by
    cases hq : st.open_set with
    | nil => simp [astarLoop, hq]
    | cons e rest =>
      obtain ⟨k, current⟩ := e
      by_cases hc : current ∈ st.open_set_hash
      · by_cases he : current = end_node
        · subst he
          simp [astarLoop, hq, hc]
        · simp only [astarLoop, hq, hc, if_pos, if_neg he, if_true]
          exact astarLoop_algorithm_label g hfn end_node n1 n2 fuel _
      · simp only [astarLoop, hq, hc, if_false]
        exact astarLoop_algorithm_label g hfn end_node n1 n2 fuel _

theorem astar_unknown_tag_euclidean (g : Graph) (s e htag : String)
    (hm : htag ≠ "manhattan") :
    astar g s e htag =
      Option.map (fun r => { r with algorithm := "astar_" ++ htag })
        (astar g s e "euclidean") := by
  unfold astar
  have hfe : (if htag = "manhattan" then manhattan_heuristic
      else euclidean_heuristic) = euclidean_heuristic := if_neg hm
  have hee : (if ("euclidean" : String) = "manhattan" then manhattan_heuristic
      else euclidean_heuristic) = euclidean_heuristic := if_neg (by decide)
  rw [hfe, hee]
  split_ifs with hg
  · rfl
  · exact astarLoop_algorithm_label g euclidean_heuristic e htag "euclidean"
      (searchFuel g) _

/-- Amended claim C3: the InvalidHeuristic rejection lives in the HTTP
handler (`find_path_astar`, `app.py` lines 87-92), which validates the tag
before invoking the search and returns an error with no partial result;
`astar` itself performs no validation and silently substitutes the euclidean
heuristic for every unknown tag, returning the same path, distance and node
count as with `"euclidean"`, labelled with the given tag. -/
theorem claim_C3_handler_validates (g : Graph) (s e htag : String)
    (h1 : htag ≠ "euclidean") (h2 : htag ≠ "manhattan") :
    find_path_astar_core g s e htag = .error .InvalidHeuristic ∧
    astar g s e htag =
      Option.map (fun r => { r with algorithm := "astar_" ++ htag })
        (astar g s e "euclidean") := by
  constructor
  · simp [find_path_astar_core, h1, h2]
  · exact astar_unknown_tag_euclidean g s e htag h2

/-- Witness for C3's amended theorem at the tag `"random"`. -/
theorem claim_C3_handler_validates_witness :
    ("random" : String) ≠ "euclidean" ∧ ("random" : String) ≠ "manhattan" ∧
    (find_path_astar_core exTri "A" "C" "random" = .error .InvalidHeuristic ∧
     astar exTri "A" "C" "random" =
       Option.map (fun r => { r with algorithm := "astar_" ++ "random" })
         (astar exTri "A" "C" "euclidean")) :=
  ⟨by decide, by decide,
    claim_C3_handler_validates exTri "A" "C" "random" (by decide) (by decide)⟩

/-! ## Edge-addition lemmas (C8) -/

theorem get_neighbors_add_node (g : Graph) (n : String) (x y : ℚ) (v : String) :
    (g.add_node n x y).get_neighbors v = g.get_neighbors v := by
  cases hn : dictGet g.adjacency_list n with
  | some l => simp [Graph.add_node, Graph.get_neighbors, hn]
  | none =>
    simp only [Graph.add_node, Graph.get_neighbors, hn, Option.isSome_none,
      Bool.false_eq_true, if_false]
    by_cases hv : (dictGet g.adjacency_list v).isSome
    · rw [dictGetD, dictGet_append_left _ _ _ hv, dictGetD]
    · rw [Option.not_isSome_iff_eq_none] at hv
      rw [dictGetD, dictGet_append_right _ _ _ hv, dictGetD, hv]
      by_cases hnv : n = v
      · subst hnv
        simp [dictGet]
      · simp [dictGet, hnv]

theorem get_neighbors_pre_insert (g : Graph) (a b : String) :
    let g1 := if (dictGet g.adjacency_list a).isSome then g else g.add_node a
    let g2 := if (dictGet g1.adjacency_list b).isSome then g1 else g1.add_node b
    ∀ v, g2.get_neighbors v = g.get_neighbors v := by
  intro g1 g2 v
  have h1 : g1.get_neighbors v = g.get_neighbors v := by
    show (if (dictGet g.adjacency_list a).isSome then g else g.add_node a).get_neighbors v = _
    split
    · rfl
    · exact get_neighbors_add_node g a 0 0 v
  show (if (dictGet g1.adjacency_list b).isSome then g1 else g1.add_node b).get_neighbors v = _
  split
  · exact h1
  · rw [get_neighbors_add_node g1 b 0 0 v]
    exact h1

theorem get_neighbors_add_edge_from (g : Graph) (a b : String) (w : ℚ)
    (hab : a ≠ b) :
    (g.add_edge a b w true).get_neighbors a = g.get_neighbors a ++ [(b, w)] := by
  unfold Graph.add_edge
  have hpre := get_neighbors_pre_insert g a b
  simp only at hpre
  simp only [if_pos rfl, if_true]
  unfold Graph.get_neighbors
  rw [dictGetD, dictGet_set_ne _ _ (fun h => hab h.symm), ← dictGetD]
  show (dictGetD (dictSet _ a _) a []) = _
  rw [dictGetD, dictGet_set_self]
  simp only [Option.getD_some]
  congr 1
  exact hpre a

theorem get_neighbors_add_edge_to (g : Graph) (a b : String) (w : ℚ)
    (hab : a ≠ b) :
    (g.add_edge a b w true).get_neighbors b = g.get_neighbors b ++ [(a, w)] := by
  unfold Graph.add_edge
  have hpre := get_neighbors_pre_insert g a b
  simp only at hpre
  simp only [if_pos rfl, if_true]
  unfold Graph.get_neighbors
  rw [dictGetD, dictGet_set_self]
  simp only [Option.getD_some]
  congr 1
  show (dictGetD (dictSet _ a _) b []) = _
  rw [dictGetD, dictGet_set_ne _ _ hab, ← dictGetD]
  exact hpre b

theorem get_neighbors_add_edge_self (g : Graph) (a : String) (w : ℚ) :
    (g.add_edge a a w true).get_neighbors a =
      g.get_neighbors a ++ [(a, w)] ++ [(a, w)] := by
  unfold Graph.add_edge
  have hpre := get_neighbors_pre_insert g a a
  simp only at hpre
  simp only [if_pos rfl, if_true]
  unfold Graph.get_neighbors
  rw [dictGetD, dictGet_set_self]
  simp only [Option.getD_some]
  congr 1
  show (dictGetD (dictSet _ a _) a []) = _
  rw [dictGetD, dictGet_set_self]
  simp only [Option.getD_some]
  congr 1
  exact hpre a

/-- Claim C8: a bidirectional `add_edge(a, b, w)` makes `(b, w)` an arc of
`a` and `(a, w)` an arc of `b`, and the operation appends without
deduplication — each call increases the multiplicity of the appended arc by
exactly one in each direction (by two in the single self-loop list when
`a = b`), so repeating the identical call yields parallel arcs. -/
theorem claim_C8_bidirectional_symmetric (g : Graph) (a b : String) (w : ℚ) :
    ((b, w) ∈ (g.add_edge a b w true).get_neighbors a ∧
     (a, w) ∈ (g.add_edge a b w true).get_neighbors b) ∧
    (List.count (b, w) ((g.add_edge a b w true).get_neighbors a) =
       List.count (b, w) (g.get_neighbors a) + (if a = b then 2 else 1) ∧
     List.count (a, w) ((g.add_edge a b w true).get_neighbors b) =
       List.count (a, w) (g.get_neighbors b) + (if a = b then 2 else 1)) := by
  by_cases hab : a = b
  · subst hab
    rw [get_neighbors_add_edge_self g a w]
    refine ⟨⟨by simp, by simp⟩, ?_, ?_⟩ <;>
      simp [List.count_append, List.count_singleton]
  · rw [get_neighbors_add_edge_from g a b w hab, get_neighbors_add_edge_to g a b w hab]
    refine ⟨⟨by simp, by simp⟩, ?_, ?_⟩ <;>
      simp [List.count_append, List.count_singleton, hab]

/-! ## Start-equals-end behaviour (C10) -/

theorem walkPrev_none (previous : List (String × Option String)) :
    ∀ (fuel : Nat) (acc : List String), walkPrev previous fuel none acc = acc
  | 0, _ => rfl
  | _ + 1, _ => rfl

theorem dictGetD_init_start (adj : List (String × List (String × ℚ)))
    (s : String) (v : WithTop ℚ) :
    dictGetD (dictSet (adj.map (fun kv => (kv.1, (⊤ : WithTop ℚ)))) s v) s ⊤ = v := by
  rw [dictGetD, dictGet_set_self]
  rfl

theorem dictGetD_prev_init (adj : List (String × List (String × ℚ)))
    (s : String) (hs : (dictGet adj s).isSome) :
    dictGetD (adj.map (fun kv => (kv.1, (none : Option String)))) s none = none := by
  rw [dictGetD, dictGet_map_const]
  obtain ⟨l, hl⟩ := Option.isSome_iff_exists.mp hs
  rw [hl]
  rfl

/-- Claim C10: searching from a node to itself explores exactly that node
and returns the one-element path with distance zero, for `dijkstra` and for
`astar` with either valid heuristic tag. -/
theorem claim_C10_start_equals_end (g : Graph) (s htag : String)
    (hs : dictMem g.adjacency_list s)
    (_hh : htag = "euclidean" ∨ htag = "manhattan") :
    dijkstra g s s =
      some { path := [s], distance := 0, nodes_explored := 1,
             algorithm := "dijkstra" } ∧
    astar g s s htag =
      some { path := [s], distance := 0, nodes_explored := 1,
             algorithm := "astar_" ++ htag } := by
  have hs' : (dictGet g.adjacency_list s).isSome := hs
  have hguard : ¬ ((dictGet g.adjacency_list s).isNone ∨
      (dictGet g.adjacency_list s).isNone) := by
    simp only [Option.isNone_iff_eq_none]
    intro h
    rcases h with h | h <;> simp [h] at hs'
  constructor
  · unfold dijkstra
    rw [if_neg hguard]
    have hfuel : searchFuel g =
        ((g.adjacency_list.map (fun kv => kv.2.length)).sum + 1) + 1 := rfl
    rw [hfuel]
    simp only [dijkstraLoop, List.not_mem_nil, if_false, if_pos rfl, if_true]
    rw [dictGetD_init_start]
    have hne : (((0 : ℚ) : WithTop ℚ)) ≠ ⊤ := WithTop.coe_ne_top
    rw [if_neg hne]
    have hwalk : walkFuel g = g.adjacency_list.length + 1 := rfl
    rw [hwalk]
    simp only [walkPrev]
    rw [dictGetD_prev_init _ _ hs', walkPrev_none]
    rfl
  · unfold astar
    rw [if_neg hguard]
    have hfuel : searchFuel g =
        ((g.adjacency_list.map (fun kv => kv.2.length)).sum + 1) + 1 := rfl
    rw [hfuel]
    simp only [astarLoop, List.mem_singleton, if_pos rfl, if_true]
    rw [dictGetD_init_start]
    have hwalk : walkFuel g = g.adjacency_list.length + 1 := rfl
    rw [hwalk]
    simp only [walkPrev]
    rw [dictGetD_prev_init _ _ hs', walkPrev_none]
    rfl

/-- Witness for C10 on the triangle graph with `s = "A"`. -/
theorem claim_C10_start_equals_end_witness :
    dictMem exTri.adjacency_list "A" ∧
    (("euclidean" : String) = "euclidean" ∨ ("euclidean" : String) = "manhattan") ∧
    (dijkstra exTri "A" "A" =
       some { path := ["A"], distance := 0, nodes_explored := 1,
              algorithm := "dijkstra" } ∧
     astar exTri "A" "A" "euclidean" =
       some { path := ["A"], distance := 0, nodes_explored := 1,
              algorithm := "astar_" ++ "euclidean" }) :=
  ⟨by with_unfolding_all decide, Or.inl rfl,
    claim_C10_start_equals_end exTri "A" "euclidean"
      (by with_unfolding_all decide) (Or.inl rfl)⟩

/-! ## Structured-input characterisation (C4) -/

/-- A node item that makes `from_dict` raise: an object without the `id` key
(a bare id can never raise, it is stringified). -/
def NodeItem.lacksId : NodeItem → Prop
  | .bare _ => False
  | .obj i _ _ => i = none

instance (n : NodeItem) : Decidable n.lacksId := by
  cases n with
  | bare s => exact .isFalse (fun h => h)
  | obj i x y => exact inferInstanceAs (Decidable (i = none))

/-- An edge item that makes `from_dict` raise: `from` or `to` missing. -/
def EdgeItem.lacksEndpoint (e : EdgeItem) : Prop :=
  e.fromK = none ∨ e.toK = none

instance (e : EdgeItem) : Decidable e.lacksEndpoint := by
  unfold EdgeItem.lacksEndpoint
  infer_instance

/-- One node step of the default-resolved construction the claim describes:
absent `x`/`y` become `0` (the `id` default is never consulted on well-keyed
input). -/
def nodeStepD (g : Graph) : NodeItem → Graph
  | .bare s => g.add_node s 0 0
  | .obj i x y => g.add_node (i.getD "") (x.getD 0) (y.getD 0)

/-- One edge step of the default-resolved construction: absent `weight`
becomes `1.0`, absent `bidirectional` becomes `true`. -/
def edgeStepD (g : Graph) (e : EdgeItem) : Graph :=
  g.add_edge (e.fromK.getD "") (e.toK.getD "") (e.weightK.getD 1)
    (e.bidirectionalK.getD true)

/-- The claim's reading of `from_dict` on well-keyed input: fold the node
list, then the edge list, resolving absent optional fields to defaults. -/
def buildWithDefaults (d : GraphData) : Graph :=
  d.edges.foldl edgeStepD (d.nodes.foldl nodeStepD Graph.empty)

theorem addNodesFromData_error_iff (l : List NodeItem) :
    ∀ g, (addNodesFromData g l = .error .MalformedInput ↔
      ∃ n ∈ l, n.lacksId) := by
  induction l with
  | nil => intro g; simp [addNodesFromData]
  | cons n rest ih =>
    intro g
    cases n with
    | bare s =>
      rw [addNodesFromData, ih]
      simp [NodeItem.lacksId]
    | obj i x y =>
      cases i with
      | none => simp [addNodesFromData, NodeItem.lacksId]
      | some v =>
        rw [addNodesFromData, ih]
        simp [NodeItem.lacksId]

theorem addNodesFromData_ok (l : List NodeItem) :
    ∀ g, (∀ n ∈ l, ¬ n.lacksId) →
      addNodesFromData g l = .ok (l.foldl nodeStepD g) := by
  induction l with
  | nil => intro g _; rfl
  | cons n rest ih =>
    intro g h
    cases n with
    | bare s =>
      rw [addNodesFromData, List.foldl_cons]
      exact ih _ (fun m hm => h m (List.mem_cons_of_mem _ hm))
    | obj i x y =>
      cases i with
      | none => exact absurd rfl (h _ (List.mem_cons_self _ _))
      | some v =>
        rw [addNodesFromData, List.foldl_cons]
        exact ih _ (fun m hm => h m (List.mem_cons_of_mem _ hm))

theorem addEdgesFromData_error_iff (l : List EdgeItem) :
    ∀ g, (addEdgesFromData g l = .error .MalformedInput ↔
      ∃ e ∈ l, e.lacksEndpoint) := by
  induction l with
  | nil => intro g; simp [addEdgesFromData]
  | cons e rest ih =>
    intro g
    cases hf : e.fromK with
    | none => simp [addEdgesFromData, hf, EdgeItem.lacksEndpoint]
    | some f =>
      cases ht : e.toK with
      | none => simp [addEdgesFromData, hf, ht, EdgeItem.lacksEndpoint]
      | some t =>
        rw [addEdgesFromData]
        simp only [hf, ht]
        rw [ih]
        simp [EdgeItem.lacksEndpoint, hf, ht]

theorem addEdgesFromData_ok (l : List EdgeItem) :
    ∀ g, (∀ e ∈ l, ¬ e.lacksEndpoint) →
      addEdgesFromData g l = .ok (l.foldl edgeStepD g) := by
  induction l with
  | nil => intro g _; rfl
  | cons e rest ih =>
    intro g h
    have he := h e (List.mem_cons_self _ _)
    unfold EdgeItem.lacksEndpoint at he
    push_neg at he
    obtain ⟨f, hf⟩ := Option.ne_none_iff_exists'.mp he.1
    obtain ⟨t, ht⟩ := Option.ne_none_iff_exists'.mp he.2
    rw [addEdgesFromData]
    simp only [hf, ht, List.foldl_cons]
    have : edgeStepD g e = g.add_edge f t (e.weightK.getD 1) (e.bidirectionalK.getD true) := by
      unfold edgeStepD
      rw [hf, ht]
      rfl
    rw [← this]
    exact ih _ (fun m hm => h m (List.mem_cons_of_mem _ hm))

/-- Claim C4: `from_dict` fails with MalformedInput exactly when a node
object lacks `id` or an edge lacks `from`/`to`; on well-keyed input it
succeeds and produces the default-resolved construction (node `x`,`y`
default `0`; edge `weight` defaults `1.0`, `bidirectional` defaults
`true`). -/
theorem claim_C4_from_dict_malformed (d : GraphData) :
    (Graph.from_dict d = .error .MalformedInput ↔
       (∃ n ∈ d.nodes, n.lacksId) ∨ (∃ e ∈ d.edges, e.lacksEndpoint)) ∧
    ((∀ n ∈ d.nodes, ¬ n.lacksId) → (∀ e ∈ d.edges, ¬ e.lacksEndpoint) →
       Graph.from_dict d = .ok (buildWithDefaults d)) := by
  by_cases hn : ∃ n ∈ d.nodes, n.lacksId
  · have herr := (addNodesFromData_error_iff d.nodes Graph.empty).mpr hn
    constructor
    · rw [Graph.from_dict, herr]
      simp [hn]
    · intro hgood _
      obtain ⟨n, hmem, hbad⟩ := hn
      exact absurd hbad (hgood n hmem)
  · have hgood : ∀ n ∈ d.nodes, ¬ n.lacksId := by
      push_neg at hn
      exact hn
    have hok := addNodesFromData_ok d.nodes Graph.empty hgood
    constructor
    · rw [Graph.from_dict, hok]
      simp only
      rw [addEdgesFromData_error_iff]
      simp [hn]
    · intro _ hegood
      rw [Graph.from_dict, hok]
      simp only
      rw [addEdgesFromData_ok d.edges _ hegood]
      rfl

/-- Witness for C4: a payload exercising every default (bare node id,
object node without `y`, edge without `weight` and `bidirectional`). -/
theorem claim_C4_from_dict_malformed_witness :
    (∀ n ∈ (GraphData.mk [.obj (some "A") (some 1) none, .bare "B"]
        [EdgeItem.mk (some "A") (some "B") none none]).nodes, ¬ n.lacksId) ∧
    (∀ e ∈ (GraphData.mk [.obj (some "A") (some 1) none, .bare "B"]
        [EdgeItem.mk (some "A") (some "B") none none]).edges, ¬ e.lacksEndpoint) ∧
    Graph.from_dict (GraphData.mk [.obj (some "A") (some 1) none, .bare "B"]
        [EdgeItem.mk (some "A") (some "B") none none]) =
      .ok (buildWithDefaults (GraphData.mk [.obj (some "A") (some 1) none, .bare "B"]
        [EdgeItem.mk (some "A") (some "B") none none])) :=
  ⟨by decide, by decide,
    (claim_C4_from_dict_malformed _).2 (by decide) (by decide)⟩

/-! ## Frontier tie-break and determinism (C6) -/

/-- Two equal-cost paths A-B-D and A-C-D; the arc to C is inserted before
the arc to B, so only the lexicographic tie-break can explain a preference
for B. -/
def exTie : Graph :=
  (((Graph.empty.add_edge "A" "C" 1).add_edge "A" "B" 1).add_edge "C" "D" 1).add_edge "B" "D" 1

/-- A sorted frontier with two entries of equal priority, used as the
witness instance. -/
def exQueue : List QEntry :=
  [(((2 : ℚ) : WithTop ℚ), "A"), (((2 : ℚ) : WithTop ℚ), "B"),
   (((3 : ℚ) : WithTop ℚ), "C")]

/-- Claim C6: the frontier shared by both searches pops, among entries of
equal numeric priority, the lexicographically smallest node id first.  The
loops touch the frontier only through `heappush` and by dropping the popped
head, so sortedness — established by the singleton initial frontier — is an
invariant (first conjunct), and the popped head is lexicographically minimal
among equal-priority entries (second conjunct).  Consequently the searches
are deterministic: the embedding is a pure function, so repeated runs are
definitionally identical (third conjunct), and on the two-equal-cost-paths
graph the tie resolves to the lexicographically smaller intermediate B even
though the arc to C was inserted first (final conjuncts). -/
theorem claim_C6_tie_break_deterministic :
    (∀ (q : List QEntry) (e : QEntry), List.Sorted entryLE q →
        List.Sorted entryLE (heappush q e)) ∧
    (∀ (k : WithTop ℚ) (i : String) (rest : List QEntry),
        List.Sorted entryLE ((k, i) :: rest) →
        ∀ e ∈ (k, i) :: rest, e.1 = k → strLe i e.2) ∧
    (∀ (g : Graph) (s t htag : String),
        dijkstra g s t = dijkstra g s t ∧ astar g s t htag = astar g s t htag) ∧
    dijkstra exTie "A" "D" =
      some { path := ["A", "B", "D"], distance := 2, nodes_explored := 4,
             algorithm := "dijkstra" } ∧
    astar exTie "A" "D" "euclidean" =
      some { path := ["A", "B", "D"], distance := 2, nodes_explored := 4,
             algorithm := "astar_euclidean" } := by
  refine ⟨fun q e h => heappush_sorted e h, ?_, fun g s t htag => ⟨rfl, rfl⟩, ?_, ?_⟩
  · intro k i rest hsort e he hek
    rcases sorted_head_min hsort e he with hlt | ⟨_, hle⟩
    · rw [hek] at hlt
      exact absurd hlt (lt_irrefl k)
    · exact hle
  · with_unfolding_all decide
  · with_unfolding_all decide

/-- Witness for C6 at a concrete sorted frontier with an equal-priority
pair. -/
theorem claim_C6_tie_break_deterministic_witness :
    List.Sorted entryLE exQueue ∧
    List.Sorted entryLE (heappush exQueue (((1 : ℚ) : WithTop ℚ), "Z")) ∧
    strLe "A" "B" :=
  ⟨by with_unfolding_all decide,
    claim_C6_tie_break_deterministic.1 exQueue (((1 : ℚ) : WithTop ℚ), "Z")
      (by with_unfolding_all decide),
    claim_C6_tie_break_deterministic.2.1 ((2 : ℚ) : WithTop ℚ) "A"
      [(((2 : ℚ) : WithTop ℚ), "B"), (((3 : ℚ) : WithTop ℚ), "C")]
      (by with_unfolding_all decide) (((2 : ℚ) : WithTop ℚ), "B")
      (by with_unfolding_all decide) rfl⟩

/-! ## Graph construction invariant (C9) -/

/-- Graphs constructible through the public construction operations
(`Graph()`, `add_node`, `add_edge`, `Graph.from_dict`). -/
inductive Built : Graph → Prop
  | empty : Built Graph.empty
  | add_node {g : Graph} (i : String) (x y : ℚ) :
      Built g → Built (g.add_node i x y)
  | add_edge {g : Graph} (a b : String) (w : ℚ) (bd : Bool) :
      Built g → Built (g.add_edge a b w bd)
  | from_dict {d : GraphData} {g : Graph} :
      Graph.from_dict d = .ok g → Built g

theorem dictMem_iff_mem_keys {α : Type} (m : List (String × α)) (k : String) :
    dictMem m k ↔ k ∈ m.map Prod.fst := by
  constructor
  · exact fun h => mem_keys_of_dictGet_isSome h
  · exact fun h => dictGet_isSome_of_mem_keys m k h

theorem dictMem_append {α : Type} {m : List (String × α)} (l : List (String × α))
    {k : String} (h : dictMem m k) : dictMem (m ++ l) k := by
  unfold dictMem at h ⊢
  rw [dictGet_append_left _ _ _ h]
  exact h

theorem dictMem_set {α : Type} {m : List (String × α)} (k : String) (v : α)
    {k' : String} (h : dictMem m k') : dictMem (dictSet m k v) k' := by
  unfold dictMem at h ⊢
  by_cases hk : k = k'
  · subst hk
    rw [dictGet_set_self]
    rfl
  · rw [dictGet_set_ne _ _ hk]
    exact h

theorem mem_dictSet_cases {α : Type} {m : List (String × α)} {k : String}
    {v : α} {kv : String × α} (h : kv ∈ dictSet m k v) :
    kv ∈ m ∨ kv = (k, v) := by
  induction m with
  | nil =>
    simp only [dictSet, List.mem_singleton] at h
    exact Or.inr h
  | cons hd rest ih =>
    by_cases hk : hd.1 = k
    · simp only [dictSet, hk, if_pos, List.mem_cons] at h
      rcases h with h | h
      · exact Or.inr (by rw [h, ← hk])
      · exact Or.inl (List.mem_cons_of_mem _ h)
    · simp only [dictSet, hk, if_false, List.mem_cons] at h
      rcases h with h | h
      · exact Or.inl (h ▸ List.mem_cons_self _ _)
      · rcases ih h with h' | h'
        · exact Or.inl (List.mem_cons_of_mem _ h')
        · exact Or.inr h'

theorem dictMem_add_node (g : Graph) (n : String) (x y : ℚ) {v : String}
    (h : dictMem g.adjacency_list v) :
    dictMem (g.add_node n x y).adjacency_list v := by
  unfold Graph.add_node
  simp only
  split
  · exact h
  · exact dictMem_append _ h

theorem dictMem_add_node_self (g : Graph) (n : String) (x y : ℚ) :
    dictMem (g.add_node n x y).adjacency_list n := by
  unfold Graph.add_node
  simp only
  split
  · assumption
  · rename_i hn
    rw [Option.not_isSome_iff_eq_none] at hn
    unfold dictMem
    rw [dictGet_append_right _ _ _ hn]
    simp [dictGet]

theorem closedGraph_add_node (g : Graph) (n : String) (x y : ℚ)
    (h : ClosedGraph g) : ClosedGraph (g.add_node n x y) := by
  intro kv hkv arc harc
  have hadj : (g.add_node n x y).adjacency_list = g.adjacency_list ∨
      (g.add_node n x y).adjacency_list = g.adjacency_list ++ [(n, [])] := by
    unfold Graph.add_node
    simp only
    split
    · exact Or.inl rfl
    · exact Or.inr rfl
  rcases hadj with hadj | hadj
  · rw [hadj] at hkv ⊢
    exact h kv hkv arc harc
  · rw [hadj] at hkv ⊢
    rcases List.mem_append.mp hkv with hkv | hkv
    · exact dictMem_append _ (h kv hkv arc harc)
    · simp only [List.mem_singleton] at hkv
      subst hkv
      simp at harc

/-- Closure is preserved when an existing key's arc list is replaced by arcs
whose endpoints are all keys. -/
theorem closedGraph_set_arcs (g : Graph) (a : String)
    (L : List (String × ℚ)) (h : ClosedGraph g)
    (hL : ∀ arc ∈ L, dictMem g.adjacency_list arc.1) :
    ClosedGraph { g with adjacency_list := dictSet g.adjacency_list a L } := by
  intro kv hkv arc harc
  simp only at hkv ⊢
  rcases mem_dictSet_cases hkv with hkv | hkv
  · exact dictMem_set a L (h kv hkv arc harc)
  · subst hkv
    exact dictMem_set a L (hL arc harc)

theorem get_neighbors_arcs_closed (g : Graph) (h : ClosedGraph g)
    (u : String) : ∀ arc ∈ g.get_neighbors u, dictMem g.adjacency_list arc.1 := by
  intro arc harc
  unfold Graph.get_neighbors dictGetD at harc
  cases hu : dictGet g.adjacency_list u with
  | none => simp [hu] at harc
  | some l =>
    rw [hu] at harc
    simp only [Option.getD_some] at harc
    exact h (u, l) (dictGet_mem_values hu) arc harc

theorem closedGraph_add_edge (g : Graph) (a b : String) (w : ℚ) (bd : Bool)
    (h : ClosedGraph g) : ClosedGraph (g.add_edge a b w bd) := by
  unfold Graph.add_edge
  simp only
  set g1 := if (dictGet g.adjacency_list a).isSome then g else g.add_node a with hg1
  have hc1 : ClosedGraph g1 := by
    rw [hg1]
    split
    · exact h
    · exact closedGraph_add_node g a 0 0 h
  have hm1a : dictMem g1.adjacency_list a := by
    rw [hg1]
    split
    · assumption
    · exact dictMem_add_node_self g a 0 0
  set g2 := if (dictGet g1.adjacency_list b).isSome then g1 else g1.add_node b with hg2
  have hc2 : ClosedGraph g2 := by
    rw [hg2]
    split
    · exact hc1
    · exact closedGraph_add_node g1 b 0 0 hc1
  have hm2a : dictMem g2.adjacency_list a := by
    rw [hg2]
    split
    · exact hm1a
    · exact dictMem_add_node g1 b 0 0 hm1a
  have hm2b : dictMem g2.adjacency_list b := by
    rw [hg2]
    split
    · assumption
    · exact dictMem_add_node_self g1 b 0 0
  have hc3 : ClosedGraph
      { g2 with adjacency_list :=
          dictSet g2.adjacency_list a (g2.get_neighbors a ++ [(b, w)]) } := by
    apply closedGraph_set_arcs g2 a _ hc2
    intro arc harc
    rcases List.mem_append.mp harc with harc | harc
    · exact get_neighbors_arcs_closed g2 hc2 a arc harc
    · simp only [List.mem_singleton] at harc
      subst harc
      exact hm2b
  set g3 : Graph :=
    { g2 with adjacency_list :=
        dictSet g2.adjacency_list a (g2.get_neighbors a ++ [(b, w)]) } with hg3
  have hm3a : dictMem g3.adjacency_list a := dictMem_set _ _ hm2a
  have hm3b : dictMem g3.adjacency_list b := dictMem_set _ _ hm2b
  split
  · apply closedGraph_set_arcs g3 b _ hc3
    intro arc harc
    rcases List.mem_append.mp harc with harc | harc
    · exact get_neighbors_arcs_closed g3 hc3 b arc harc
    · simp only [List.mem_singleton] at harc
      subst harc
      exact hm3a
  · exact hc3

theorem nodupKeys_add_node (g : Graph) (n : String) (x y : ℚ)
    (h : (g.adjacency_list.map Prod.fst).Nodup) :
    ((g.add_node n x y).adjacency_list.map Prod.fst).Nodup := by
  unfold Graph.add_node
  simp only
  split
  · exact h
  · rename_i hn
    rw [Option.not_isSome_iff_eq_none] at hn
    rw [List.map_append]
    simp only [List.map_cons, List.map_nil]
    rw [List.nodup_append]
    refine ⟨h, List.nodup_singleton n, ?_⟩
    intro z hz hz'
    simp only [List.mem_singleton] at hz'
    subst hz'
    have := dictGet_isSome_of_mem_keys _ _ hz
    rw [hn] at this
    simp at this

theorem nodupKeys_set_of_mem {α : Type} (m : List (String × α)) (k : String)
    (v : α) (hmem : (dictGet m k).isSome)
    (h : (m.map Prod.fst).Nodup) : ((dictSet m k v).map Prod.fst).Nodup := by
  rw [dictSet_keys_of_mem m k v hmem]
  exact h

theorem nodupKeys_add_edge (g : Graph) (a b : String) (w : ℚ) (bd : Bool)
    (h : (g.adjacency_list.map Prod.fst).Nodup) :
    ((g.add_edge a b w bd).adjacency_list.map Prod.fst).Nodup := by
  unfold Graph.add_edge
  simp only
  set g1 := if (dictGet g.adjacency_list a).isSome then g else g.add_node a with hg1
  have hn1 : (g1.adjacency_list.map Prod.fst).Nodup := by
    rw [hg1]; split
    · exact h
    · exact nodupKeys_add_node g a 0 0 h
  have hm1a : dictMem g1.adjacency_list a := by
    rw [hg1]; split
    · assumption
    · exact dictMem_add_node_self g a 0 0
  set g2 := if (dictGet g1.adjacency_list b).isSome then g1 else g1.add_node b with hg2
  have hn2 : (g2.adjacency_list.map Prod.fst).Nodup := by
    rw [hg2]; split
    · exact hn1
    · exact nodupKeys_add_node g1 b 0 0 hn1
  have hm2a : dictMem g2.adjacency_list a := by
    rw [hg2]; split
    · exact hm1a
    · exact dictMem_add_node g1 b 0 0 hm1a
  have hm2b : dictMem g2.adjacency_list b := by
    rw [hg2]; split
    · assumption
    · exact dictMem_add_node_self g1 b 0 0
  have hn3 := nodupKeys_set_of_mem g2.adjacency_list a
    (g2.get_neighbors a ++ [(b, w)]) hm2a hn2
  split
  · exact nodupKeys_set_of_mem _ b _ (dictMem_set _ _ hm2b) hn3
  · exact hn3

theorem wf_add_node (g : Graph) (n : String) (x y : ℚ) (h : g.WF) :
    (g.add_node n x y).WF :=
  ⟨nodupKeys_add_node g n x y h.1, closedGraph_add_node g n x y h.2⟩

theorem wf_add_edge (g : Graph) (a b : String) (w : ℚ) (bd : Bool)
    (h : g.WF) : (g.add_edge a b w bd).WF :=
  ⟨nodupKeys_add_edge g a b w bd h.1, closedGraph_add_edge g a b w bd h.2⟩

theorem wf_empty : Graph.empty.WF := by
  constructor
  · simp [Graph.empty]
  · intro kv hkv
    simp [Graph.empty] at hkv

theorem wf_addNodesFromData : ∀ (l : List NodeItem) (g g' : Graph),
    addNodesFromData g l = .ok g' → g.WF → g'.WF
  | [], g, g', h, hw => by
    cases h
    exact hw
  | .bare s :: rest, g, g', h, hw =>
    wf_addNodesFromData rest _ g' h (wf_add_node g s 0 0 hw)
  | .obj none _ _ :: rest, g, g', h, hw => by
    simp [addNodesFromData] at h
  | .obj (some i) xK yK :: rest, g, g', h, hw =>
    wf_addNodesFromData rest _ g' h (wf_add_node g i (xK.getD 0) (yK.getD 0) hw)

theorem wf_addEdgesFromData : ∀ (l : List EdgeItem) (g g' : Graph),
    addEdgesFromData g l = .ok g' → g.WF → g'.WF
  | [], g, g', h, hw => by
    cases h
    exact hw
  | e :: rest, g, g', h, hw => by
    rw [addEdgesFromData] at h
    cases hf : e.fromK with
    | none => rw [hf] at h; cases h
    | some f =>
      cases ht : e.toK with
      | none => rw [hf, ht] at h; cases h
      | some t =>
        rw [hf, ht] at h
        exact wf_addEdgesFromData rest _ g' h
          (wf_add_edge g f t (e.weightK.getD 1) (e.bidirectionalK.getD true) hw)

/-- Every graph the Python class can construct has duplicate-free adjacency
keys and arc endpoints closed under the key set. -/
theorem built_wf : ∀ {g : Graph}, Built g → g.WF := by
  intro g h
  induction h with
  | empty => exact wf_empty
  | add_node i x y _ ih => exact wf_add_node _ i x y ih
  | add_edge a b w bd _ ih => exact wf_add_edge _ a b w bd ih
  | from_dict hok =>
    rename_i d g'
    rw [Graph.from_dict] at hok
    cases hn : addNodesFromData Graph.empty d.nodes with
    | error e => rw [hn] at hok; cases hok
    | ok g1 =>
      rw [hn] at hok
      exact wf_addEdgesFromData d.edges g1 g' hok
        (wf_addNodesFromData d.nodes Graph.empty g1 hn wf_empty)

/-- Proof-side abbreviation for the endpoint auto-creation step performed
at the start of `add_edge`. -/
def Graph.ensureNode (g : Graph) (n : String) : Graph :=
  if (dictGet g.adjacency_list n).isSome then g else g.add_node n

theorem add_edge_positions (g : Graph) (a b : String) (w : ℚ) (bd : Bool) :
    (g.add_edge a b w bd).node_positions =
      ((g.ensureNode a).ensureNode b).node_positions := by
  cases bd <;> rfl

/-- Claim C9: (i) in every graph built by any sequence of the construction
operations, each id appearing as an arc endpoint is a key of the adjacency
mapping; (ii) an endpoint absent from the adjacency mapping is auto-created
by `add_edge` with the default position `(0, 0)`. -/
theorem claim_C9_endpoint_closure :
    (∀ g : Graph, Built g → ClosedGraph g) ∧
    (∀ (g : Graph) (a b : String) (w : ℚ) (bd : Bool),
      (¬ dictMem g.adjacency_list a →
        dictGet (g.add_edge a b w bd).node_positions a = some (0, 0)) ∧
      (¬ dictMem g.adjacency_list b →
        dictGet (g.add_edge a b w bd).node_positions b = some (0, 0))) := by
  constructor
  · exact fun g h => (built_wf h).2
  · intro g a b w bd
    rw [add_edge_positions]
    unfold Graph.ensureNode dictMem
    constructor
    · intro ha
      rw [if_neg ha]
      have h1a : dictGet (g.add_node a).node_positions a = some (0, 0) := by
        unfold Graph.add_node
        exact dictGet_set_self _ _ _
      split
      · exact h1a
      · unfold Graph.add_node
        simp only
        by_cases hba : b = a
        · subst hba
          exact dictGet_set_self _ _ _
        · rw [dictGet_set_ne _ _ hba]
          exact h1a
    · intro hb
      have hbnone : dictGet g.adjacency_list b = none := by
        rw [← Option.not_isSome_iff_eq_none]
        simpa using hb
      by_cases ha : (dictGet g.adjacency_list a).isSome = true
      · rw [if_pos ha, if_neg hb]
        unfold Graph.add_node
        exact dictGet_set_self _ _ _
      · rw [if_neg ha]
        by_cases hba : b = a
        · subst hba
          have hmem := dictMem_add_node_self g b 0 0
          unfold dictMem at hmem
          rw [if_pos hmem]
          unfold Graph.add_node
          exact dictGet_set_self _ _ _
        · have hab : ¬ a = b := fun h => hba h.symm
          have hb1 : ¬ ((dictGet (g.add_node a).adjacency_list b).isSome = true) := by
            unfold Graph.add_node
            simp only [ha, Bool.false_eq_true, if_false]
            rw [dictGet_append_right _ _ _ hbnone]
            simp [dictGet, hab]
          rw [if_neg hb1]
          unfold Graph.add_node
          simp only
          exact dictGet_set_self _ _ _

/-- Witness for C9: the triangle graph is built by three `add_edge` calls
from the empty graph and is closed; adding an edge over the fresh endpoints
"A" and "B" of the empty graph auto-creates both at position `(0, 0)`. -/
theorem claim_C9_endpoint_closure_witness :
    Built exTri ∧ ClosedGraph exTri ∧
    (¬ dictMem Graph.empty.adjacency_list "A" ∧
     ¬ dictMem Graph.empty.adjacency_list "B") ∧
    (dictGet (Graph.empty.add_edge "A" "B" 1 true).node_positions "A" = some (0, 0) ∧
     dictGet (Graph.empty.add_edge "A" "B" 1 true).node_positions "B" = some (0, 0)) := by
  have hbuilt : Built exTri :=
    Built.add_edge "A" "C" 5 true
      (Built.add_edge "B" "C" 2 true
        (Built.add_edge "A" "B" 1 true Built.empty))
  refine ⟨hbuilt, claim_C9_endpoint_closure.1 exTri hbuilt, ⟨?_, ?_⟩, ?_, ?_⟩
  · decide
  · decide
  · exact (claim_C9_endpoint_closure.2 Graph.empty "A" "B" 1 true).1 (by decide)
  · exact (claim_C9_endpoint_closure.2 Graph.empty "A" "B" 1 true).2 (by decide)

/-! ## No-result behaviour (C5) -/

/-- Both search states only ever record finite distances, and only ever hold
frontier entries, for ids reachable from the start node. -/
def ReachInv (g : Graph) (s : String) (st : DijkstraState) : Prop :=
  (∀ v, dictGetD st.distances v ⊤ ≠ ⊤ → ∃ p c, PathTo g s v p c) ∧
  (∀ e ∈ st.priority_queue, ∃ p c, PathTo g s e.2 p c)

theorem reachInv_relax {g : Graph} {s : String} {d : WithTop ℚ} {u : String}
    {st : DijkstraState} (hinv : ReachInv g s st)
    (hu : ∃ p c, PathTo g s u p c) {arc : String × ℚ}
    (harc : arc ∈ g.get_neighbors u) :
    ReachInv g s (dijkstraRelax d u st arc) := by
  by_cases hlt : d + (arc.2 : WithTop ℚ) < dictGetD st.distances arc.1 ⊤
  case neg =>
    simp only [dijkstraRelax, if_neg hlt]
    exact hinv
  case pos =>
    simp only [dijkstraRelax, if_pos hlt]
    constructor
    · intro v hv
      by_cases hva : v = arc.1
      · subst hva
        obtain ⟨p, c, hp⟩ := hu
        exact ⟨p ++ [arc.1], c + arc.2, hp.extend harc⟩
      · apply hinv.1 v
        rwa [dictGetD, dictGet_set_ne _ _ (fun h => hva h.symm), ← dictGetD] at hv
    · intro e he
      rcases mem_heappush.mp he with he | he
      · subst he
        obtain ⟨p, c, hp⟩ := hu
        exact ⟨p ++ [arc.1], c + arc.2, hp.extend harc⟩
      · exact hinv.2 e he

theorem reachInv_relax_fold {g : Graph} {s u : String} {d : WithTop ℚ} :
    ∀ (arcs : List (String × ℚ)) {st : DijkstraState},
      ReachInv g s st → (∃ p c, PathTo g s u p c) →
      (∀ arc ∈ arcs, arc ∈ g.get_neighbors u) →
      ReachInv g s (arcs.foldl (dijkstraRelax d u) st)
  | [], _, hinv, _, _ => hinv
  | arc :: rest, st, hinv, hu, hsub => by
    rw [List.foldl_cons]
    exact reachInv_relax_fold rest
      (reachInv_relax hinv hu (hsub arc (List.mem_cons_self _ _))) hu
      (fun a ha => hsub a (List.mem_cons_of_mem _ ha))

theorem reachInv_loop (g : Graph) (s t : String) :
    ∀ (fuel : Nat) (st : DijkstraState), ReachInv g s st →
      ReachInv g s (dijkstraLoop g t fuel st)
  | 0, _, hinv => hinv
  | fuel + 1, st, hinv => by
    cases hq : st.priority_queue with
    | nil => simp only [dijkstraLoop, hq]; exact hinv
    | cons e rest =>
      obtain ⟨d, u⟩ := e
      simp only [dijkstraLoop, hq]
      have hrest : ∀ e ∈ rest, ∃ p c, PathTo g s e.2 p c := fun e he =>
        hinv.2 e (by rw [hq]; exact List.mem_cons_of_mem _ he)
      have hu : ∃ p c, PathTo g s u p c :=
        hinv.2 (d, u) (by rw [hq]; exact List.mem_cons_self _ _)
      by_cases hvis : u ∈ st.visited
      · rw [if_pos hvis]
        exact reachInv_loop g s t fuel _ ⟨hinv.1, hrest⟩
      · rw [if_neg hvis]
        by_cases hend : u = t
        · rw [if_pos hend]
          exact ⟨hinv.1, hrest⟩
        · rw [if_neg hend]
          split
          · exact reachInv_loop g s t fuel _ ⟨hinv.1, hrest⟩
          · exact reachInv_loop g s t fuel _
              (reachInv_relax_fold _ ⟨hinv.1, hrest⟩ hu (fun a ha => ha))

theorem reachInv_initial (g : Graph) (s : String) :
    ReachInv g s
      { distances := dictSet (g.adjacency_list.map (fun kv => (kv.1, (⊤ : WithTop ℚ))))
          s ((0 : ℚ) : WithTop ℚ),
        previous := g.adjacency_list.map (fun kv => (kv.1, none)),
        priority_queue := [(((0 : ℚ) : WithTop ℚ), s)],
        visited := [], nodes_explored := 0 } := by
  constructor
  · intro v hv
    by_cases hvs : v = s
    · subst hvs
      exact ⟨[v], 0, PathTo.single v⟩
    · exfalso
      apply hv
      simp only [dictGetD]
      rw [dictGet_set_ne _ _ (fun h => hvs h.symm), dictGet_map_const]
      cases dictGet g.adjacency_list v <;> rfl
  · intro e he
    simp only [List.mem_singleton] at he
    subst he
    exact ⟨[s], 0, PathTo.single s⟩

theorem dijkstra_some_reach {g : Graph} {s t : String} {r : PathResult}
    (h : dijkstra g s t = some r) : ∃ p c, PathTo g s t p c := by
  unfold dijkstra at h
  split at h
  · cases h
  · set st := dijkstraLoop g t (searchFuel g)
      { distances := dictSet (g.adjacency_list.map (fun kv => (kv.1, (⊤ : WithTop ℚ))))
          s ((0 : ℚ) : WithTop ℚ),
        previous := g.adjacency_list.map (fun kv => (kv.1, none)),
        priority_queue := [(((0 : ℚ) : WithTop ℚ), s)],
        visited := [], nodes_explored := 0 } with hst
    have hinv : ReachInv g s st :=
      reachInv_loop g s t (searchFuel g) _ (reachInv_initial g s)
    simp only at h
    split at h
    · cases h
    · rename_i hne
      exact hinv.1 t hne

/-- Reachability invariant for the open-set membership structure of
`astar`. -/
def HashReach (g : Graph) (s : String) (st : AStarState) : Prop :=
  ∀ v ∈ st.open_set_hash, ∃ p c, PathTo g s v p c

theorem hashReach_relax {g : Graph} {s : String}
    {hfn : Graph → String → String → ℚ} {t u : String} {st : AStarState}
    (hinv : HashReach g s st) (hu : ∃ p c, PathTo g s u p c)
    {arc : String × ℚ} (harc : arc ∈ g.get_neighbors u) :
    HashReach g s (astarRelax g hfn t u st arc) := by
  by_cases hcl : arc.1 ∈ st.closed_set
  · simp only [astarRelax, if_pos hcl]
    exact hinv
  · by_cases hlt : dictGetD st.g_score u ⊤ + (arc.2 : WithTop ℚ) <
        dictGetD st.g_score arc.1 ⊤
    · by_cases hh : arc.1 ∈ st.open_set_hash
      · simp only [astarRelax, if_neg hcl, if_pos hlt, if_pos hh]
        exact hinv
      · simp only [astarRelax, if_neg hcl, if_pos hlt, if_neg hh]
        intro v hv
        rcases List.mem_cons.mp hv with hv | hv
        · subst hv
          obtain ⟨p, c, hp⟩ := hu
          exact ⟨p ++ [arc.1], c + arc.2, hp.extend harc⟩
        · exact hinv v hv
    · simp only [astarRelax, if_neg hcl, if_neg hlt]
      exact hinv

theorem hashReach_relax_fold {g : Graph} {s : String}
    {hfn : Graph → String → String → ℚ} {t u : String} :
    ∀ (arcs : List (String × ℚ)) {st : AStarState},
      HashReach g s st → (∃ p c, PathTo g s u p c) →
      (∀ arc ∈ arcs, arc ∈ g.get_neighbors u) →
      HashReach g s (arcs.foldl (astarRelax g hfn t u) st)
  | [], _, hinv, _, _ => hinv
  | arc :: rest, st, hinv, hu, hsub => by
    rw [List.foldl_cons]
    exact hashReach_relax_fold rest
      (hashReach_relax hinv hu (hsub arc (List.mem_cons_self _ _))) hu
      (fun a ha => hsub a (List.mem_cons_of_mem _ ha))

theorem astarLoop_some_reach {g : Graph} {s : String}
    {hfn : Graph → String → String → ℚ} {t htag : String} :
    ∀ (fuel : Nat) (st : AStarState) {r : PathResult},
      HashReach g s st → astarLoop g hfn t htag fuel st = some r →
      ∃ p c, PathTo g s t p c
  | 0, st, _, _, h => by cases h
  | fuel + 1, st, r, hinv, h => by
    cases hq : st.open_set with
    | nil =>
      simp only [astarLoop, hq] at h
      exact Option.noConfusion h
    | cons e rest =>
      obtain ⟨k, current⟩ := e
      simp only [astarLoop, hq] at h
      by_cases hc : current ∈ st.open_set_hash
      · rw [if_pos hc] at h
        by_cases hend : current = t
        · subst hend
          exact hinv current hc
        · rw [if_neg hend] at h
          refine astarLoop_some_reach fuel _ ?_ h
          apply hashReach_relax_fold _ _ (hinv current hc) (fun a ha => ha)
          intro v hv
          exact hinv v (List.mem_of_mem_erase hv)
      · rw [if_neg hc] at h
        exact astarLoop_some_reach fuel
          { st with open_set := rest } hinv h

theorem astar_some_reach {g : Graph} {s t htag : String} {r : PathResult}
    (h : astar g s t htag = some r) : ∃ p c, PathTo g s t p c := by
  unfold astar at h
  split at h
  · cases h
  · refine astarLoop_some_reach (searchFuel g) _ ?_ h
    intro v hv
    simp only [List.mem_singleton] at hv
    subst hv
    exact ⟨[v], 0, PathTo.single v⟩

/-- Claim C5: both searches answer no-result (`None`) — the embedding is a
total function, so no structural error can be raised — whenever start or
end is absent from the adjacency mapping, and whenever both are present but
no walk from start reaches end. -/
theorem claim_C5_absent_or_unreachable (g : Graph) (s t htag : String)
    (_hv : htag = "euclidean" ∨ htag = "manhattan") :
    ((dictGet g.adjacency_list s = none ∨ dictGet g.adjacency_list t = none) →
      dijkstra g s t = none ∧ astar g s t htag = none) ∧
    (dictMem g.adjacency_list s → dictMem g.adjacency_list t →
      (¬ ∃ p c, PathTo g s t p c) →
      dijkstra g s t = none ∧ astar g s t htag = none) := by
  constructor
  · intro habs
    have hcond : (dictGet g.adjacency_list s).isNone ∨
        (dictGet g.adjacency_list t).isNone := by
      rcases habs with h | h
      · exact Or.inl (by simp [h])
      · exact Or.inr (by simp [h])
    constructor
    · unfold dijkstra
      rw [if_pos hcond]
    · unfold astar
      rw [if_pos hcond]
  · intro _ _ hunreach
    constructor
    · cases hd : dijkstra g s t with
      | none => rfl
      | some r => exact absurd (dijkstra_some_reach hd) hunreach
    · cases ha : astar g s t htag with
      | none => rfl
      | some r => exact absurd (astar_some_reach ha) hunreach

theorem exTriIso_step :
    ∀ u ∈ (["A", "B", "C"] : List String),
      ∀ arc ∈ exTriIso.get_neighbors u,
        arc.1 ∈ (["A", "B", "C"] : List String) := by
  with_unfolding_all decide

/-- The isolated node Z is unreachable from A: every walk starting in the
triangle stays in the triangle. -/
theorem exTriIso_unreachable : ¬ ∃ p c, PathTo exTriIso "A" "Z" p c := by
  rintro ⟨p, c, hp⟩
  have key : ∀ {u t : String} {p : List String} {c : ℚ},
      PathTo exTriIso u t p c → u ∈ (["A", "B", "C"] : List String) →
      t ∈ (["A", "B", "C"] : List String) := by
    intro u t p c h
    induction h with
    | single v => exact id
    | step harc hp ih => exact fun hu => ih (exTriIso_step _ hu _ harc)
  have hz := key hp (by decide)
  simp at hz

/-- Witness for C5: absent end node on the triangle; present but isolated
end node on the triangle extended with Z. -/
theorem claim_C5_absent_or_unreachable_witness :
    (dictGet exTri.adjacency_list "Z" = none ∧
     dijkstra exTri "A" "Z" = none ∧ astar exTri "A" "Z" "euclidean" = none) ∧
    (dictMem exTriIso.adjacency_list "A" ∧ dictMem exTriIso.adjacency_list "Z" ∧
     (¬ ∃ p c, PathTo exTriIso "A" "Z" p c) ∧
     dijkstra exTriIso "A" "Z" = none ∧
     astar exTriIso "A" "Z" "euclidean" = none) := by
  have h1 := (claim_C5_absent_or_unreachable exTri "A" "Z" "euclidean"
    (Or.inl rfl)).1 (Or.inr (by with_unfolding_all decide))
  have h2 := (claim_C5_absent_or_unreachable exTriIso "A" "Z" "euclidean"
    (Or.inl rfl)).2 (by with_unfolding_all decide)
    (by with_unfolding_all decide) exTriIso_unreachable
  exact ⟨⟨by with_unfolding_all decide, h1.1, h1.2⟩,
    ⟨by with_unfolding_all decide, by with_unfolding_all decide,
      exTriIso_unreachable, h2.1, h2.2⟩⟩

/-! ## Dijkstra optimality (C1)

The development follows the classical invariant proof, adapted to the
source's lazy-deletion loop with early exit: visited nodes carry final,
optimal distances; every unvisited node with a finite distance has a live
frontier entry carrying exactly that distance; every frontier key is the
cost of an actual walk; and the predecessor table encodes, for every node
with a finite distance, a duplicate-free walk from the start whose interior
is visited and whose cost is at most the recorded distance. -/

/-- A weight of a stored arc is non-negative under `NonnegWeights`. -/
theorem arc_weight_nonneg {g : Graph} (hnn : NonnegWeights g) {u : String}
    {arc : String × ℚ} (harc : arc ∈ g.get_neighbors u) : 0 ≤ arc.2 := by
  unfold Graph.get_neighbors dictGetD at harc
  cases hu : dictGet g.adjacency_list u with
  | none => simp [hu] at harc
  | some l =>
    rw [hu] at harc
    simp only [Option.getD_some] at harc
    exact hnn (u, l) (dictGet_mem_values hu) arc harc

/-- The walk encoded by the predecessor table: `PrevChain g start prev v p c`
states that following `prev` backwards from `v` reaches `start`, that the
node sequence so obtained (in forward order) is `p`, and that its arcs can
be chosen with total weight `c`. -/
inductive PrevChain (g : Graph) (start : String)
    (prev : List (String × Option String)) : String → List String → ℚ → Prop
  | base : dictGetD prev start none = none → PrevChain g start prev start [start] 0
  | step {u v : String} {w c : ℚ} {p : List String} :
      PrevChain g start prev u p c → dictGetD prev v none = some u →
      (v, w) ∈ g.get_neighbors u → PrevChain g start prev v (p ++ [v]) (c + w)

theorem PrevChain.pathTo {g : Graph} {start : String}
    {prev : List (String × Option String)} :
    ∀ {v p c}, PrevChain g start prev v p c → PathTo g start v p c := by
  intro v p c h
  induction h with
  | base _ => exact PathTo.single start
  | step hprev hp harc ih =>
    rename_i u v w c p
    exact ih.extend harc

theorem PrevChain.congr {g : Graph} {start : String}
    {prev prev' : List (String × Option String)} :
    ∀ {v p c}, PrevChain g start prev v p c →
      (∀ x ∈ p, dictGetD prev' x none = dictGetD prev x none) →
      PrevChain g start prev' v p c := by
  intro v p c h
  induction h with
  | base hb =>
    intro hagree
    refine PrevChain.base ?_
    rw [hagree start (List.mem_singleton_self start), hb]
  | step hchain hp harc ih =>
    rename_i u v w c p
    intro hagree
    refine PrevChain.step (ih ?_) ?_ harc
    · intro x hx
      exact hagree x (List.mem_append_left _ hx)
    · rw [hagree v (List.mem_append_right _ (List.mem_singleton_self v)), hp]

theorem PrevChain.eq_dropLast_concat {g : Graph} {start : String}
    {prev : List (String × Option String)} :
    ∀ {v p c}, PrevChain g start prev v p c → p = p.dropLast ++ [v] := by
  intro v p c h
  cases h with
  | base _ => rfl
  | step hchain hp harc =>
    rename_i u w c p
    rw [List.dropLast_concat]

theorem PrevChain.walkPrev_eq {g : Graph} {start : String}
    {prev : List (String × Option String)} :
    ∀ {v p c}, PrevChain g start prev v p c →
      ∀ (acc : List String) (fuel : Nat), p.length ≤ fuel →
        walkPrev prev fuel (some v) acc = p ++ acc := by
  intro v p c h
  induction h with
  | base hb =>
    intro acc fuel hfuel
    cases fuel with
    | zero => simp at hfuel
    | succ f =>
      rw [walkPrev, hb, walkPrev_none]
      rfl
  | step hchain hp harc ih =>
    rename_i u v w c p
    intro acc fuel hfuel
    cases fuel with
    | zero => simp at hfuel
    | succ f =>
      rw [walkPrev, hp, ih (v :: acc) f (by
        rw [List.length_append, List.length_singleton] at hfuel
        omega)]
      rw [List.append_assoc]
      rfl

theorem dictGetD_set_self {α : Type} (m : List (String × α)) (k : String)
    (v d : α) : dictGetD (dictSet m k v) k d = v := by
  rw [dictGetD, dictGet_set_self]
  rfl

theorem dictGetD_set_ne {α : Type} (m : List (String × α)) {k k' : String}
    (v d : α) (h : k ≠ k') : dictGetD (dictSet m k v) k' d = dictGetD m k' d := by
  rw [dictGetD, dictGet_set_ne _ _ h, dictGetD]

/-- The value `distances[v]` of a search state (`⊤` models `float('inf')`,
which is also what a Python `KeyError` cell would never reach on the
well-formed graphs the class constructs). -/
def dval (st : DijkstraState) (v : String) : WithTop ℚ :=
  dictGetD st.distances v ⊤

/-- The running invariant of the `dijkstra` loop, part one: everything
except the edge-relaxation bound (which is only restored after a node's full
neighbor fold). -/
structure DCore (g : Graph) (start : String) (st : DijkstraState) : Prop where
  sorted : List.Sorted entryLE st.priority_queue
  qkeys : ∀ e ∈ st.priority_queue, ∃ c : ℚ, e.1 = (c : WithTop ℚ) ∧
    dictMem g.adjacency_list e.2 ∧ (∃ p, PathTo g start e.2 p c) ∧
    dval st e.2 ≤ e.1
  qmem : ∀ v, v ∉ st.visited → dval st v ≠ ⊤ →
    (dval st v, v) ∈ st.priority_queue
  attain : ∀ v, dval st v ≠ ⊤ →
    ∃ p c, PathTo g start v p c ∧ ((c : ℚ) : WithTop ℚ) = dval st v
  vis_fin : ∀ u ∈ st.visited, dval st u ≠ ⊤
  vis_min : ∀ u ∈ st.visited, ∀ p c, PathTo g start u p c →
    dval st u ≤ ((c : ℚ) : WithTop ℚ)
  vis_keys : ∀ u ∈ st.visited, dictMem g.adjacency_list u
  dstart : dval st start = ((0 : ℚ) : WithTop ℚ)
  chain : ∀ v, dval st v ≠ ⊤ → ∃ p c, PrevChain g start st.previous v p c ∧
    ((c : ℚ) : WithTop ℚ) ≤ dval st v ∧ (∀ x ∈ p.dropLast, x ∈ st.visited) ∧
    p.Nodup ∧ (∀ x ∈ p, dictMem g.adjacency_list x)

/-- The running invariant, part two: a visited node's arcs have all been
relaxed. -/
def VisEdge (g : Graph) (st : DijkstraState) : Prop :=
  ∀ u ∈ st.visited, ∀ arc ∈ g.get_neighbors u,
    dval st arc.1 ≤ dval st u + (arc.2 : WithTop ℚ)

/-- Loop measure: pending queue entries plus the arcs of unvisited keys;
it strictly decreases at every iteration. -/
def unvisitedDegSum (g : Graph) (visited : List String) : Nat :=
  ((g.adjacency_list.filter (fun kv => kv.1 ∉ visited)).map
    (fun kv => kv.2.length)).sum

def dMeasure (g : Graph) (st : DijkstraState) : Nat :=
  st.priority_queue.length + unvisitedDegSum g st.visited

theorem unvisitedDegSum_nil (g : Graph) :
    unvisitedDegSum g [] = (g.adjacency_list.map (fun kv => kv.2.length)).sum := by
  unfold unvisitedDegSum
  congr 1
  congr 1
  apply List.filter_eq_self.mpr
  intro kv _
  simp

theorem filter_unvisited_cons_of_no_key
    (l : List (String × List (String × ℚ))) (x : String)
    (visited : List String) (hx : ∀ kv ∈ l, kv.1 ≠ x) :
    l.filter (fun kv => kv.1 ∉ x :: visited) =
      l.filter (fun kv => kv.1 ∉ visited) := by
  apply List.filter_congr
  intro kv hkv
  have := hx kv hkv
  simp [List.mem_cons, this]

theorem degSum_insert_aux :
    ∀ (l : List (String × List (String × ℚ))) (visited : List String)
      (x : String), (l.map Prod.fst).Nodup → (dictGet l x).isSome = true →
      x ∉ visited →
      ((l.filter (fun kv => kv.1 ∉ x :: visited)).map
          (fun kv => kv.2.length)).sum + (dictGetD l x []).length =
      ((l.filter (fun kv => kv.1 ∉ visited)).map (fun kv => kv.2.length)).sum
  | [], _, _, _, hm, _ => by simp [dictGet] at hm
  | kv :: rest, visited, x, hnd, hm, hx => by
    by_cases hk : kv.1 = x
    · subst hk
      have hnokey : ∀ kv' ∈ rest, kv'.1 ≠ kv.1 := by
        intro kv' h' heq
        simp only [List.map_cons, List.nodup_cons] at hnd
        exact hnd.1 (heq ▸ List.mem_map_of_mem Prod.fst h')
      have h1 : (kv :: rest).filter (fun kv' => kv'.1 ∉ kv.1 :: visited) =
          rest.filter (fun kv' => kv'.1 ∉ kv.1 :: visited) := by
        rw [List.filter_cons]
        simp
      have h2 : (kv :: rest).filter (fun kv' => kv'.1 ∉ visited) =
          kv :: rest.filter (fun kv' => kv'.1 ∉ visited) := by
        rw [List.filter_cons]
        simp [hx]
      have h3 : dictGetD (kv :: rest) kv.1 [] = kv.2 := by
        simp [dictGetD, dictGet]
      rw [h1, h2, h3, filter_unvisited_cons_of_no_key rest kv.1 visited hnokey]
      simp only [List.map_cons, List.sum_cons]
      omega
    · have hm' : (dictGet rest x).isSome = true := by
        simpa [dictGet, hk] using hm
      have hnd' : (rest.map Prod.fst).Nodup := by
        simp only [List.map_cons, List.nodup_cons] at hnd
        exact hnd.2
      have hgd : dictGetD (kv :: rest) x [] = dictGetD rest x [] := by
        simp [dictGetD, dictGet, hk]
      have ih := degSum_insert_aux rest visited x hnd' hm' hx
      by_cases hkv : kv.1 ∈ visited
      · have hb1 : (kv :: rest).filter (fun kv' => kv'.1 ∉ x :: visited) =
            rest.filter (fun kv' => kv'.1 ∉ x :: visited) := by
          rw [List.filter_cons]
          simp [hkv]
        have hb2 : (kv :: rest).filter (fun kv' => kv'.1 ∉ visited) =
            rest.filter (fun kv' => kv'.1 ∉ visited) := by
          rw [List.filter_cons]
          simp [hkv]
        rw [hb1, hb2, hgd]
        exact ih
      · have hb1 : (kv :: rest).filter (fun kv' => kv'.1 ∉ x :: visited) =
            kv :: rest.filter (fun kv' => kv'.1 ∉ x :: visited) := by
          rw [List.filter_cons]
          simp [hkv, hk]
        have hb2 : (kv :: rest).filter (fun kv' => kv'.1 ∉ visited) =
            kv :: rest.filter (fun kv' => kv'.1 ∉ visited) := by
          rw [List.filter_cons]
          simp [hkv]
        rw [hb1, hb2, hgd]
        simp only [List.map_cons, List.sum_cons]
        omega

theorem unvisitedDegSum_insert (g : Graph) (visited : List String)
    (x : String) (hnd : (g.adjacency_list.map Prod.fst).Nodup)
    (hmem : dictMem g.adjacency_list x) (hx : x ∉ visited) :
    unvisitedDegSum g (x :: visited) + (g.get_neighbors x).length =
      unvisitedDegSum g visited :=
  degSum_insert_aux g.adjacency_list visited x hnd hmem hx

theorem dcore_relax_step
    {g : Graph} {start : String} (hnn : NonnegWeights g)
    (hclosed : ClosedGraph g)
    {st : DijkstraState} {u : String} {du : ℚ}
    (hinv : DCore g start st) (hu : u ∈ st.visited)
    (hdu : dval st u = ((du : ℚ) : WithTop ℚ))
    {arc : String × ℚ} (harc : arc ∈ g.get_neighbors u) :
    DCore g start (dijkstraRelax ((du : ℚ) : WithTop ℚ) u st arc) ∧
    (∀ x ∈ st.visited,
      dval (dijkstraRelax ((du : ℚ) : WithTop ℚ) u st arc) x = dval st x) ∧
    (∀ x, dval (dijkstraRelax ((du : ℚ) : WithTop ℚ) u st arc) x ≤ dval st x) ∧
    dval (dijkstraRelax ((du : ℚ) : WithTop ℚ) u st arc) arc.1 ≤
      (((du + arc.2 : ℚ)) : WithTop ℚ) ∧
    (dijkstraRelax ((du : ℚ) : WithTop ℚ) u st arc).visited = st.visited ∧
    (dijkstraRelax ((du : ℚ) : WithTop ℚ) u st arc).priority_queue.length ≤
      st.priority_queue.length + 1 := by
  obtain ⟨pu, cu, hpu, hcu⟩ := hinv.attain u (by rw [hdu]; exact WithTop.coe_ne_top)
  have hcu' : cu = du := by
    rw [hdu] at hcu
    exact_mod_cast hcu
  rw [hcu'] at hpu
  by_cases hlt : ((du : ℚ) : WithTop ℚ) + ((arc.2 : ℚ) : WithTop ℚ) <
      dictGetD st.distances arc.1 ⊤
  case neg =>
    have hstate : dijkstraRelax ((du : ℚ) : WithTop ℚ) u st arc = st := by
      simp only [dijkstraRelax]
      rw [if_neg hlt]
    rw [hstate]
    refine ⟨hinv, fun x _ => rfl, fun x => le_refl _, ?_, rfl, by omega⟩
    rw [WithTop.coe_add]
    exact not_lt.mp hlt
  case pos =>
    have hvnv : arc.1 ∉ st.visited := by
      intro hv
      have hmin := hinv.vis_min arc.1 hv (pu ++ [arc.1]) (du + arc.2)
        (hpu.extend harc)
      rw [WithTop.coe_add] at hmin
      exact absurd hlt (not_lt.mpr hmin)
    have hstate : dijkstraRelax ((du : ℚ) : WithTop ℚ) u st arc =
        { st with
          distances := dictSet st.distances arc.1
            (((du : ℚ) : WithTop ℚ) + ((arc.2 : ℚ) : WithTop ℚ)),
          previous := dictSet st.previous arc.1 (some u),
          priority_queue := heappush st.priority_queue
            (((du : ℚ) : WithTop ℚ) + ((arc.2 : ℚ) : WithTop ℚ), arc.1) } := by
      simp only [dijkstraRelax]
      rw [if_pos hlt]
    rw [hstate]
    set nd := ((du : ℚ) : WithTop ℚ) + ((arc.2 : ℚ) : WithTop ℚ) with hnd
    have hndcoe : nd = (((du + arc.2 : ℚ)) : WithTop ℚ) := by
      rw [hnd, WithTop.coe_add]
    set st' : DijkstraState :=
      { st with
        distances := dictSet st.distances arc.1 nd,
        previous := dictSet st.previous arc.1 (some u),
        priority_queue := heappush st.priority_queue (nd, arc.1) } with hst'
    have hself : dval st' arc.1 = nd := by
      show dictGetD (dictSet st.distances arc.1 nd) arc.1 ⊤ = nd
      exact dictGetD_set_self _ _ _ _
    have hother : ∀ x, x ≠ arc.1 → dval st' x = dval st x := by
      intro x hx
      show dictGetD (dictSet st.distances arc.1 nd) x ⊤ = _
      exact dictGetD_set_ne _ _ _ (fun h => hx h.symm)
    have hfrozen : ∀ x ∈ st.visited, dval st' x = dval st x := by
      intro x hx
      exact hother x (fun h => hvnv (h ▸ hx))
    have hmono : ∀ x, dval st' x ≤ dval st x := by
      intro x
      by_cases hx : x = arc.1
      · subst hx
        rw [hself]
        exact le_of_lt hlt
      · rw [hother x hx]
    have hprevother : ∀ x, x ≠ arc.1 →
        dictGetD (dictSet st.previous arc.1 (some u)) x none =
          dictGetD st.previous x none := by
      intro x hx
      exact dictGetD_set_ne _ _ _ (fun h => hx h.symm)
    have hkeyv : dictMem g.adjacency_list arc.1 := by
      have hum := hinv.vis_keys u hu
      unfold dictMem at hum
      obtain ⟨l, hl⟩ := Option.isSome_iff_exists.mp hum
      have hal : arc ∈ l := by
        simpa [Graph.get_neighbors, dictGetD, hl] using harc
      exact hclosed (u, l) (dictGet_mem_values hl) arc hal
    refine ⟨?_, hfrozen, hmono, ?_, rfl, ?_⟩
    · constructor
      · exact heappush_sorted _ hinv.sorted
      · intro e he
        rcases mem_heappush.mp he with he | he
        · subst he
          refine ⟨du + arc.2, by rw [hndcoe], hkeyv,
            ⟨pu ++ [arc.1], hpu.extend harc⟩, ?_⟩
          rw [hself]
        · obtain ⟨c, hc1, hc2, hc3, hc4⟩ := hinv.qkeys e he
          exact ⟨c, hc1, hc2, hc3, le_trans (hmono e.2) hc4⟩
      · intro x hxv hxf
        by_cases hx : x = arc.1
        · subst hx
          rw [hself]
          exact mem_heappush.mpr (Or.inl rfl)
        · rw [hother x hx] at hxf ⊢
          exact mem_heappush.mpr (Or.inr (hinv.qmem x hxv hxf))
      · intro x hxf
        by_cases hx : x = arc.1
        · subst hx
          refine ⟨pu ++ [arc.1], du + arc.2, hpu.extend harc, ?_⟩
          rw [hself, hndcoe]
        · rw [hother x hx] at hxf ⊢
          exact hinv.attain x hxf
      · intro x hx
        rw [hfrozen x hx]
        exact hinv.vis_fin x hx
      · intro x hx p c hp
        rw [hfrozen x hx]
        exact hinv.vis_min x hx p c hp
      · exact hinv.vis_keys
      · have hvstart : arc.1 ≠ start := by
          intro h
          have hds := hinv.dstart
          unfold dval at hds
          rw [h, hds] at hlt
          have h0du : 0 ≤ du := PathTo.cost_nonneg hnn hpu
          have h0w : 0 ≤ arc.2 := arc_weight_nonneg hnn harc
          rw [hndcoe, WithTop.coe_lt_coe] at hlt
          linarith
        rw [hother start (fun h => hvstart h.symm)]
        exact hinv.dstart
      · intro x hxf
        by_cases hx : x = arc.1
        · subst hx
          obtain ⟨pc, cc, hchain, hcle, hcvis, hcnd, hckeys⟩ :=
            hinv.chain u (by rw [hdu]; exact WithTop.coe_ne_top)
          have hxnp : arc.1 ∉ pc := by
            intro hmem
            rw [hchain.eq_dropLast_concat] at hmem
            rcases List.mem_append.mp hmem with hmem | hmem
            · exact hvnv (hcvis _ hmem)
            · simp only [List.mem_singleton] at hmem
              exact hvnv (hmem ▸ hu)
          refine ⟨pc ++ [arc.1], cc + arc.2, ?_, ?_, ?_, ?_, ?_⟩
          · refine PrevChain.step (hchain.congr ?_) ?_ harc
            · intro y hy
              exact hprevother y (fun h => hxnp (h ▸ hy))
            · exact dictGetD_set_self _ _ _ _
          · rw [hself, hndcoe, WithTop.coe_le_coe]
            have hcd : cc ≤ du := by
              have := hcle
              rw [hdu, WithTop.coe_le_coe] at this
              exact this
            linarith
          · rw [List.dropLast_concat]
            intro y hy
            rw [hchain.eq_dropLast_concat] at hy
            rcases List.mem_append.mp hy with hy | hy
            · exact hcvis y hy
            · simp only [List.mem_singleton] at hy
              exact hy ▸ hu
          · rw [List.nodup_append]
            refine ⟨hcnd, List.nodup_singleton _, ?_⟩
            intro y hy hy2
            simp only [List.mem_singleton] at hy2
            exact hxnp (hy2 ▸ hy)
          · intro y hy
            rcases List.mem_append.mp hy with hy | hy
            · exact hckeys y hy
            · simp only [List.mem_singleton] at hy
              exact hy ▸ hkeyv
        · rw [hother x hx] at hxf
          obtain ⟨pc, cc, hchain, hcle, hcvis, hcnd, hckeys⟩ :=
            hinv.chain x hxf
          have hnp : arc.1 ∉ pc := by
            intro hmem
            rw [hchain.eq_dropLast_concat] at hmem
            rcases List.mem_append.mp hmem with hmem | hmem
            · exact hvnv (hcvis _ hmem)
            · simp only [List.mem_singleton] at hmem
              exact hx hmem.symm
          refine ⟨pc, cc,
            hchain.congr (fun y hy => hprevother y (fun h => hnp (h ▸ hy))),
            ?_, hcvis, hcnd, hckeys⟩
          rw [hother x hx]
          exact hcle
    · rw [hself, hndcoe]
    · show (heappush st.priority_queue (nd, arc.1)).length ≤ _
      rw [heappush, List.orderedInsert_length]

theorem dcore_relax_fold
    {g : Graph} {start : String} (hnn : NonnegWeights g)
    (hclosed : ClosedGraph g) :
    ∀ (arcs : List (String × ℚ)) {st : DijkstraState} {u : String} {du : ℚ},
      DCore g start st → u ∈ st.visited →
      dval st u = ((du : ℚ) : WithTop ℚ) →
      (∀ arc ∈ arcs, arc ∈ g.get_neighbors u) →
      DCore g start (arcs.foldl (dijkstraRelax ((du : ℚ) : WithTop ℚ) u) st) ∧
      (∀ x ∈ st.visited,
        dval (arcs.foldl (dijkstraRelax ((du : ℚ) : WithTop ℚ) u) st) x =
          dval st x) ∧
      (∀ x, dval (arcs.foldl (dijkstraRelax ((du : ℚ) : WithTop ℚ) u) st) x ≤
          dval st x) ∧
      (∀ arc ∈ arcs,
        dval (arcs.foldl (dijkstraRelax ((du : ℚ) : WithTop ℚ) u) st) arc.1 ≤
          (((du + arc.2 : ℚ)) : WithTop ℚ)) ∧
      (arcs.foldl (dijkstraRelax ((du : ℚ) : WithTop ℚ) u) st).visited =
        st.visited ∧
      (arcs.foldl (dijkstraRelax ((du : ℚ) : WithTop ℚ) u) st).priority_queue.length ≤
        st.priority_queue.length + arcs.length
  | [], st, u, du, hinv, _, _, _ => by
    exact ⟨hinv, fun x _ => rfl, fun x => le_refl _, by simp, rfl, by simp⟩
  | arc :: rest, st, u, du, hinv, hu, hdu, hsub => by
    have hstep := dcore_relax_step hnn hclosed hinv hu hdu
      (hsub arc (List.mem_cons_self _ _))
    obtain ⟨hinv1, hfroz1, hmono1, hbound1, hvis1, hlen1⟩ := hstep
    have hu1 : u ∈ (dijkstraRelax ((du : ℚ) : WithTop ℚ) u st arc).visited := by
      rw [hvis1]; exact hu
    have hdu1 : dval (dijkstraRelax ((du : ℚ) : WithTop ℚ) u st arc) u =
        ((du : ℚ) : WithTop ℚ) := by
      rw [hfroz1 u hu, hdu]
    have ih := dcore_relax_fold hnn hclosed rest hinv1 hu1 hdu1
      (fun a ha => hsub a (List.mem_cons_of_mem _ ha))
    obtain ⟨ih1, ih2, ih3, ih4, ih5, ih6⟩ := ih
    rw [List.foldl_cons]
    refine ⟨ih1, ?_, ?_, ?_, ?_, ?_⟩
    · intro x hx
      rw [ih2 x (by rw [hvis1]; exact hx), hfroz1 x hx]
    · intro x
      exact le_trans (ih3 x) (hmono1 x)
    · intro a ha
      rcases List.mem_cons.mp ha with ha | ha
    
      · subst ha
        exact le_trans (ih3 a.1) hbound1
      · exact ih4 a ha
    · rw [ih5, hvis1]
    · calc (rest.foldl (dijkstraRelax ((du : ℚ) : WithTop ℚ) u)
            (dijkstraRelax ((du : ℚ) : WithTop ℚ) u st arc)).priority_queue.length
          ≤ (dijkstraRelax ((du : ℚ) : WithTop ℚ) u st arc).priority_queue.length
              + rest.length := ih6
        _ ≤ st.priority_queue.length + 1 + rest.length := by omega
        _ = st.priority_queue.length + (arc :: rest).length := by
            simp [List.length_cons]
            omega

theorem dcover_aux {g : Graph} {start : String} (hnn : NonnegWeights g)
    {st : DijkstraState} (hcore : DCore g start st) (hedge : VisEdge g st) :
    ∀ {u t2 : String} {p : List String} {c : ℚ},
      PathTo g u t2 p c → u ∈ st.visited → t2 ∉ st.visited →
      ∃ e ∈ st.priority_queue, e.1 ≤ dval st u + ((c : ℚ) : WithTop ℚ) := by
  intro u t2 p c hp
  induction hp with
  | single v => exact fun hu hv => absurd hu hv
  | step harc hp ih =>
    rename_i u v t2 w c p
    intro hu ht
    by_cases hv : v ∈ st.visited
    · obtain ⟨e, he, hle⟩ := ih hv ht
      refine ⟨e, he, le_trans hle ?_⟩
      calc dval st v + ((c : ℚ) : WithTop ℚ)
          ≤ (dval st u + ((w : ℚ) : WithTop ℚ)) + ((c : ℚ) : WithTop ℚ) :=
            add_le_add_right (hedge u hu (v, w) harc) _
        _ = dval st u + (((w + c : ℚ)) : WithTop ℚ) := by
            rw [add_assoc, ← WithTop.coe_add]
    · have hfin_u : dval st u ≠ ⊤ := hcore.vis_fin u hu
      obtain ⟨duq, hduq⟩ := WithTop.ne_top_iff_exists.mp hfin_u
      have h1 : dval st v ≤ dval st u + ((w : ℚ) : WithTop ℚ) :=
        hedge u hu (v, w) harc
      have hvfin : dval st v ≠ ⊤ := by
        have hlt : dval st v < ⊤ := lt_of_le_of_lt h1 (by
          rw [← hduq, ← WithTop.coe_add]
          exact WithTop.coe_lt_top _)
        exact hlt.ne
      refine ⟨(dval st v, v), hcore.qmem v hv hvfin, ?_⟩
      have h2 : (0 : ℚ) ≤ c := PathTo.cost_nonneg hnn hp
      calc dval st v ≤ dval st u + ((w : ℚ) : WithTop ℚ) := h1
        _ ≤ dval st u + (((w + c : ℚ)) : WithTop ℚ) := by
            apply add_le_add_left
            rw [WithTop.coe_le_coe]
            linarith

theorem dcover {g : Graph} {start : String} (hnn : NonnegWeights g)
    {st : DijkstraState} (hcore : DCore g start st) (hedge : VisEdge g st)
    {t2 : String} {p : List String} {c : ℚ}
    (hp : PathTo g start t2 p c) (ht2 : t2 ∉ st.visited) :
    ∃ e ∈ st.priority_queue, e.1 ≤ ((c : ℚ) : WithTop ℚ) := by
  by_cases hs : start ∈ st.visited
  · obtain ⟨e, he, hle⟩ := dcover_aux hnn hcore hedge hp hs ht2
    refine ⟨e, he, le_trans hle ?_⟩
    rw [hcore.dstart, ← WithTop.coe_add, WithTop.coe_le_coe]
    linarith
  · refine ⟨(dval st start, start),
      hcore.qmem start hs (by rw [hcore.dstart]; exact WithTop.coe_ne_top), ?_⟩
    rw [hcore.dstart, WithTop.coe_le_coe]
    exact PathTo.cost_nonneg hnn hp

theorem entryLE_fst_le {a b : QEntry} (h : entryLE a b) : a.1 ≤ b.1 :=
  h.elim le_of_lt (fun h => le_of_eq h.1)

/-- Outcome of the `dijkstra` loop: facts that hold in both exit modes, the
optimality of the end node when it was settled, and the exit dichotomy. -/
structure DLoopOut (g : Graph) (start t : String) (st1 : DijkstraState) : Prop where
  attain : ∀ v, dval st1 v ≠ ⊤ →
    ∃ p c, PathTo g start v p c ∧ ((c : ℚ) : WithTop ℚ) = dval st1 v
  chain : ∀ v, dval st1 v ≠ ⊤ → ∃ p c, PrevChain g start st1.previous v p c ∧
    ((c : ℚ) : WithTop ℚ) ≤ dval st1 v ∧ p.Nodup ∧
    (∀ x ∈ p, dictMem g.adjacency_list x)
  vismin_t : t ∈ st1.visited → (dval st1 t ≠ ⊤ ∧
    ∀ p c, PathTo g start t p c → dval st1 t ≤ ((c : ℚ) : WithTop ℚ))
  exit : (st1.priority_queue = [] ∧ DCore g start st1 ∧ VisEdge g st1 ∧
      t ∉ st1.visited) ∨ t ∈ st1.visited

theorem dloop_spec {g : Graph} {start t : String} (hnn : NonnegWeights g)
    (hclosed : ClosedGraph g)
    (hnd : (g.adjacency_list.map Prod.fst).Nodup) :
    ∀ (fuel : Nat) (st : DijkstraState),
      DCore g start st → VisEdge g st → t ∉ st.visited →
      dMeasure g st ≤ fuel →
      DLoopOut g start t (dijkstraLoop g t fuel st)
  | 0, st, hcore, hedge, ht, hmeas => by
    have hq : st.priority_queue = [] := by
      unfold dMeasure at hmeas
      exact List.length_eq_zero.mp (by omega)
    rw [dijkstraLoop]
    refine ⟨hcore.attain, ?_, fun hvt => absurd hvt ht, Or.inl ⟨hq, hcore, hedge, ht⟩⟩
    intro v hv
    obtain ⟨p, c, h1, h2, _, h4, h5⟩ := hcore.chain v hv
    exact ⟨p, c, h1, h2, h4, h5⟩
  | fuel + 1, st, hcore, hedge, ht, hmeas => by
    cases hq : st.priority_queue with
    | nil =>
      simp only [dijkstraLoop, hq]
      refine ⟨hcore.attain, ?_, fun hvt => absurd hvt ht,
        Or.inl ⟨hq, hcore, hedge, ht⟩⟩
      intro v hv
      obtain ⟨p, c, h1, h2, _, h4, h5⟩ := hcore.chain v hv
      exact ⟨p, c, h1, h2, h4, h5⟩
    | cons e rest =>
      obtain ⟨d, x⟩ := e
      simp only [dijkstraLoop, hq]
      have hsorted_cons : List.Sorted entryLE ((d, x) :: rest) := by
        rw [← hq]
        exact hcore.sorted
      by_cases hvis : x ∈ st.visited
      · rw [if_pos hvis]
        have hcore' : DCore g start { st with priority_queue := rest } := by
          refine ⟨(List.sorted_cons.mp hsorted_cons).2, ?_, ?_, hcore.attain,
            hcore.vis_fin, hcore.vis_min, hcore.vis_keys, hcore.dstart,
            hcore.chain⟩
          · intro e he
            exact hcore.qkeys e (by rw [hq]; exact List.mem_cons_of_mem _ he)
          · intro y hyv hyf
            have hmem := hcore.qmem y hyv hyf
            rw [hq] at hmem
            rcases List.mem_cons.mp hmem with hmem | hmem
            · exact absurd hvis (by
                have : y = x := congrArg Prod.snd hmem
                rw [← this]
                exact hyv)
            · exact hmem
        have hmeas' : dMeasure g { st with priority_queue := rest } ≤ fuel := by
          unfold dMeasure at hmeas ⊢
          have : st.priority_queue.length = rest.length + 1 := by
            rw [hq]
            rfl
          simp only at hmeas ⊢
          omega
        exact dloop_spec hnn hclosed hnd fuel _ hcore' hedge ht hmeas'
      · rw [if_neg hvis]
        obtain ⟨dq, hdq, hkeyx, ⟨px, hpx⟩, hdlex⟩ :=
          hcore.qkeys (d, x) (by rw [hq]; exact List.mem_cons_self _ _)
        simp only at hdq hkeyx hpx hdlex
        have hxfin : dval st x ≠ ⊤ := by
          intro h
          rw [h, top_le_iff, hdq] at hdlex
          exact WithTop.coe_ne_top hdlex
        have hmemq := hcore.qmem x hvis hxfin
        rw [hq] at hmemq
        have hdx : dval st x = d := by
          have hmin := sorted_head_min hsorted_cons (dval st x, x) hmemq
          have h1 : d ≤ dval st x := entryLE_fst_le hmin
          exact le_antisymm hdlex h1
        set st1 : DijkstraState := { st with priority_queue := rest, visited := x :: st.visited, nodes_explored := st.nodes_explored + 1 } with hst1
        have hminx : ∀ p c, PathTo g start x p c →
            dval st x ≤ ((c : ℚ) : WithTop ℚ) := by
          intro p c hp
          obtain ⟨e, he, hle⟩ := dcover hnn hcore hedge hp hvis
          have hd_e : d ≤ e.1 := by
            rw [hq] at he
            rcases List.mem_cons.mp he with he | he
            · rw [he]
            · exact entryLE_fst_le (List.rel_of_sorted_cons hsorted_cons e he)
          rw [hdx]
          exact le_trans hd_e hle
        have hcore1 : DCore g start st1 := by
          refine ⟨(List.sorted_cons.mp hsorted_cons).2, ?_, ?_, hcore.attain,
            ?_, ?_, ?_, hcore.dstart, ?_⟩
          · intro e he
            exact hcore.qkeys e (by rw [hq]; exact List.mem_cons_of_mem _ he)
          · intro y hyv hyf
            have hyv' : y ∉ st.visited := fun h =>
              hyv (List.mem_cons_of_mem _ h)
            have hyx : y ≠ x := fun h => hyv (h ▸ List.mem_cons_self _ _)
            have hmem := hcore.qmem y hyv' hyf
            rw [hq] at hmem
            rcases List.mem_cons.mp hmem with hmem | hmem
            · exact absurd (congrArg Prod.snd hmem) hyx
            · exact hmem
          · intro y hy
            rcases List.mem_cons.mp hy with hy | hy
            · exact hy ▸ hxfin
            · exact hcore.vis_fin y hy
          · intro y hy p c hp
            rcases List.mem_cons.mp hy with hy | hy
            · subst hy
              exact hminx p c hp
            · exact hcore.vis_min y hy p c hp
          · intro y hy
            rcases List.mem_cons.mp hy with hy | hy
            · exact hy ▸ hkeyx
            · exact hcore.vis_keys y hy
          · intro v hv
            obtain ⟨p, c, h1, h2, h3, h4, h5⟩ := hcore.chain v hv
            exact ⟨p, c, h1, h2,
              fun y hy => List.mem_cons_of_mem _ (h3 y hy), h4, h5⟩
        by_cases hxt : x = t
        · rw [if_pos hxt]
          subst hxt
          refine ⟨hcore.attain, ?_, ?_, Or.inr (List.mem_cons_self _ _)⟩
          · intro v hv
            obtain ⟨p, c, h1, h2, _, h4, h5⟩ := hcore.chain v hv
            exact ⟨p, c, h1, h2, h4, h5⟩
          · intro _
            exact ⟨hxfin, hminx⟩
        · have hguard : ¬ (dictGetD st1.distances x ⊤ < d) := by
            have : dictGetD st1.distances x ⊤ = d := hdx
            rw [this]
            exact lt_irrefl d
          rw [if_neg hxt, if_neg hguard, hdq]
          have hx1 : x ∈ st1.visited := List.mem_cons_self _ _
          have hdx1 : dval st1 x = ((dq : ℚ) : WithTop ℚ) := by
            show dval st x = _
            rw [hdx, hdq]
          obtain ⟨hc2, hfroz, hmono, hbounds, hviseq, hlen⟩ :=
            dcore_relax_fold hnn hclosed (g.get_neighbors x) hcore1 hx1 hdx1
              (fun a ha => ha)
          set st2 := (g.get_neighbors x).foldl
            (dijkstraRelax ((dq : ℚ) : WithTop ℚ) x) st1 with hst2
          have hedge2 : VisEdge g st2 := by
            intro y hy arc harc
            rw [hviseq] at hy
            rcases List.mem_cons.mp hy with hy | hy
            · subst hy
              have hb := hbounds arc harc
              have hy2 : dval st2 y = ((dq : ℚ) : WithTop ℚ) := by
                rw [hfroz y hx1, hdx1]
              rw [hy2, ← WithTop.coe_add]
              exact hb
            · have h1 : dval st2 arc.1 ≤ dval st arc.1 := hmono arc.1
              have h2 : dval st2 y = dval st y :=
                hfroz y (List.mem_cons_of_mem _ hy)
              rw [h2]
              exact le_trans h1 (hedge y hy arc harc)
          have ht2 : t ∉ st2.visited := by
            rw [hviseq]
            intro hmem
            rcases List.mem_cons.mp hmem with hmem | hmem
            · exact hxt hmem.symm
            · exact ht hmem
          have hmeas2 : dMeasure g st2 ≤ fuel := by
            unfold dMeasure at hmeas ⊢
            have hq1 : st.priority_queue.length = rest.length + 1 := by
              rw [hq]
              rfl
            have hins := unvisitedDegSum_insert g st.visited x hnd hkeyx hvis
            have hlen' : st2.priority_queue.length ≤
                rest.length + (g.get_neighbors x).length := hlen
            have hv1 : unvisitedDegSum g st1.visited =
                unvisitedDegSum g (x :: st.visited) := rfl
            rw [hviseq]
            omega
          exact dloop_spec hnn hclosed hnd fuel st2 hc2 hedge2 ht2 hmeas2

/-- The state `dijkstra` initialises before entering its loop. -/
def dinit (g : Graph) (start : String) : DijkstraState where
  distances := dictSet (g.adjacency_list.map (fun kv => (kv.1, (⊤ : WithTop ℚ)))) start ((0 : ℚ) : WithTop ℚ)
  previous := g.adjacency_list.map (fun kv => (kv.1, none))
  priority_queue := [(((0 : ℚ) : WithTop ℚ), start)]
  visited := []
  nodes_explored := 0

theorem dval_dinit_ne (g : Graph) {start v : String} (h : v ≠ start) :
    dval (dinit g start) v = ⊤ := by
  show dictGetD (dictSet (g.adjacency_list.map (fun kv => (kv.1, (⊤ : WithTop ℚ)))) start ((0 : ℚ) : WithTop ℚ)) v ⊤ = ⊤
  rw [dictGetD, dictGet_set_ne _ _ (fun he => h he.symm), dictGet_map_const]
  cases dictGet g.adjacency_list v <;> rfl

theorem dcore_init (g : Graph) (start : String)
    (hstart : dictMem g.adjacency_list start) :
    DCore g start (dinit g start) ∧ VisEdge g (dinit g start) := by
  have hd0 : dval (dinit g start) start = ((0 : ℚ) : WithTop ℚ) :=
    dictGetD_init_start _ _ _
  have hprev0 : dictGetD (dinit g start).previous start none = none :=
    dictGetD_prev_init g.adjacency_list start hstart
  refine ⟨⟨List.sorted_singleton _, ?_, ?_, ?_, ?_, ?_, ?_, hd0, ?_⟩, ?_⟩
  · intro e he
    have he2 : e = (((0 : ℚ) : WithTop ℚ), start) := List.mem_singleton.mp he
    subst he2
    exact ⟨0, rfl, hstart, ⟨[start], PathTo.single start⟩, le_of_eq hd0⟩
  · intro v _ hvfin
    by_cases hv : start = v
    · subst hv
      rw [hd0]
      exact List.mem_singleton_self _
    · exact absurd (dval_dinit_ne g (fun he => hv he.symm)) hvfin
  · intro v hvfin
    by_cases hv : start = v
    · subst hv
      exact ⟨[start], 0, PathTo.single start, hd0.symm⟩
    · exact absurd (dval_dinit_ne g (fun he => hv he.symm)) hvfin
  · intro u hu
    exact absurd hu (List.not_mem_nil u)
  · intro u hu
    exact absurd hu (List.not_mem_nil u)
  · intro u hu
    exact absurd hu (List.not_mem_nil u)
  · intro v hvfin
    by_cases hv : start = v
    · subst hv
      refine ⟨[start], 0, PrevChain.base hprev0, le_of_eq hd0.symm, ?_,
        List.nodup_singleton _, ?_⟩
      · intro x hx
        simp at hx
      · intro x hx
        rw [List.mem_singleton] at hx
        exact hx ▸ hstart
    · exact absurd (dval_dinit_ne g (fun he => hv he.symm)) hvfin
  · intro u hu
    exact absurd hu (List.not_mem_nil u)

theorem dinit_measure (g : Graph) (start : String) :
    dMeasure g (dinit g start) ≤ searchFuel g := by
  show 1 + unvisitedDegSum g [] ≤ searchFuel g
  rw [unvisitedDegSum_nil]
  unfold searchFuel
  omega

theorem dijkstra_run (g : Graph) (start t : String)
    (hs : ¬ ((dictGet g.adjacency_list start).isNone ∨
      (dictGet g.adjacency_list t).isNone)) :
    dijkstra g start t =
      (if dictGetD (dijkstraLoop g t (searchFuel g) (dinit g start)).distances t ⊤ = ⊤ then none
       else some { path := walkPrev (dijkstraLoop g t (searchFuel g) (dinit g start)).previous (walkFuel g) (some t) [], distance := (dictGetD (dijkstraLoop g t (searchFuel g) (dinit g start)).distances t ⊤).untop' 0, nodes_explored := (dijkstraLoop g t (searchFuel g) (dinit g start)).nodes_explored, algorithm := "dijkstra" }) := by
  rw [dijkstra, if_neg hs]
  rfl

/-- Claim C1: on a graph with non-negative weights whose adjacency keys are
unique and arc-closed, with `start` and `t` both present and `t` reachable
from `start`, `dijkstra` returns a result whose distance is the true minimum
path weight and whose path attains it. -/
theorem claim_C1_dijkstra_optimal (g : Graph) (start t : String)
    (hwf : g.WF) (hnn : NonnegWeights g)
    (hstart : dictMem g.adjacency_list start)
    (ht : dictMem g.adjacency_list t)
    (hreach : ∃ p c, PathTo g start t p c) :
    ∃ r, dijkstra g start t = some r ∧
      PathTo g start t r.path r.distance ∧
      IsMinDist g start t r.distance := by
  obtain ⟨hnd, hclosed⟩ := hwf
  have hinit := dcore_init g start hstart
  have hout := dloop_spec hnn hclosed hnd (searchFuel g) (dinit g start)
    hinit.1 hinit.2 (List.not_mem_nil t) (dinit_measure g start)
  have hguard : ¬ ((dictGet g.adjacency_list start).isNone ∨
      (dictGet g.adjacency_list t).isNone) := by
    simp only [Option.isNone_iff_eq_none]
    intro h
    rcases h with h | h
    · rw [dictMem, h] at hstart
      exact Bool.noConfusion hstart
    · rw [dictMem, h] at ht
      exact Bool.noConfusion ht
  rw [dijkstra_run g start t hguard]
  set st := dijkstraLoop g t (searchFuel g) (dinit g start) with hstdef
  rcases hout.exit with ⟨hqnil, hcore, hedge, htv⟩ | hvt
  · obtain ⟨p, c, hp⟩ := hreach
    obtain ⟨e, he, _⟩ := dcover hnn hcore hedge hp htv
    rw [hqnil] at he
    exact absurd he (List.not_mem_nil e)
  · obtain ⟨hfin, hmin⟩ := hout.vismin_t hvt
    obtain ⟨dt, hdt⟩ := WithTop.ne_top_iff_exists.mp hfin
    obtain ⟨p, c, hchain, hcle, hnodup, hkeys⟩ := hout.chain t hfin
    have hplen : p.length ≤ g.adjacency_list.length := by
      have hsub : p ⊆ g.adjacency_list.map Prod.fst := by
        intro x hx
        exact mem_keys_of_dictGet_isSome (hkeys x hx)
      calc p.length ≤ (g.adjacency_list.map Prod.fst).length :=
            (hnodup.subperm hsub).length_le
        _ = g.adjacency_list.length := List.length_map _ _
    have hwalk : walkPrev st.previous (walkFuel g) (some t) [] = p := by
      rw [hchain.walkPrev_eq [] (walkFuel g)
        (le_trans hplen (by unfold walkFuel; omega))]
      exact List.append_nil p
    have hpath : PathTo g start t p c := hchain.pathTo
    have hceq : ((c : ℚ) : WithTop ℚ) = dval st t :=
      le_antisymm hcle (hmin p c hpath)
    have hcdt : c = dt := by
      rw [← hdt] at hceq
      exact_mod_cast hceq
    have hfin' : ¬ (dictGetD st.distances t ⊤ = ⊤) := hfin
    rw [if_neg hfin']
    refine ⟨_, rfl, ?_, ?_⟩
    · show PathTo g start t (walkPrev st.previous (walkFuel g) (some t) [])
        ((dval st t).untop' 0)
      rw [hwalk, ← hdt, WithTop.untop'_coe, ← hcdt]
      exact hpath
    · show IsMinDist g start t ((dval st t).untop' 0)
      rw [← hdt, WithTop.untop'_coe]
      refine ⟨⟨p, hcdt ▸ hpath⟩, ?_⟩
      intro p' c' hp'
      have := hmin p' c' hp'
      rw [← hdt, WithTop.coe_le_coe] at this
      exact this

/-- Witness for C1 on the triangle graph: the reported route A-B-C of
weight 3 beats the direct A-C edge of weight 5. -/
theorem claim_C1_dijkstra_optimal_witness :
    exTri.WF ∧ NonnegWeights exTri ∧ dictMem exTri.adjacency_list "A" ∧
    dictMem exTri.adjacency_list "C" ∧
    (∃ p c, PathTo exTri "A" "C" p c) ∧
    (∃ r, dijkstra exTri "A" "C" = some r ∧
      PathTo exTri "A" "C" r.path r.distance ∧
      IsMinDist exTri "A" "C" r.distance) := by
  have hwf : exTri.WF := by
    constructor
    · with_unfolding_all decide
    · unfold ClosedGraph
      with_unfolding_all decide
  have hnn : NonnegWeights exTri := by
    unfold NonnegWeights
    with_unfolding_all decide
  have hA : dictMem exTri.adjacency_list "A" := by with_unfolding_all decide
  have hC : dictMem exTri.adjacency_list "C" := by with_unfolding_all decide
  have hre : ∃ p c, PathTo exTri "A" "C" p c :=
    ⟨["A", "C"], 5 + 0,
      PathTo.step (by with_unfolding_all decide) (PathTo.single "C")⟩
  exact ⟨hwf, hnn, hA, hC, hre,
    claim_C1_dijkstra_optimal exTri "A" "C" hwf hnn hA hC hre⟩
